import Mathlib

/-!
# xray-geo-storage: webhook handler and relational storage adapter

A shallow embedding of `storage/storage.go`, `storage/postgres.go` and the two
HTTP handlers of `main.go`.

* Go strings are `String`; request bodies are the sequence of characters of a
  valid UTF-8 text (`List Char`).
* `uint` is `Nat` (the only arithmetic on it is the range check of
  `strconv.ParseUint`), `float64` is its IEEE-754 bit pattern, which the code
  only copies.
* Mutable state is passed explicitly: every operation of the `Storage`
  interface and of the gorm handle takes the state and returns the new one.
* The libraries the code calls are not part of the repository.  `encoding/json`
  is modelled concretely (stream decoder: scanner plus struct decoding); the
  conversions `strconv.ParseFloat` and `time.Parse` are parameters (`Lib`); the
  gorm handle is a parameter (`Gorm`), with one reference instance `pgModel`.
* Well-formed JSON is the grammar of RFC 8259 (`JSONText`), stated on its own
  and proved to be what the scanner accepts (`isWellFormedJSON_iff`).
-/

set_option linter.dupNamespace false

namespace GeoStorage

/-! ## Values -/

/-- Go `error` values: a plain error, or one built by `fmt.Errorf` with `%w`. -/
inductive Error where
  | text (msg : String)
  | wrapf (lead : String) (inner : Error)
  deriving DecidableEq, Repr

/-- The method `Error()` of an error value. -/
def Error.Error : Error → String
  | .text m => m
  | .wrapf lead inner => lead ++ inner.Error

/-- A `float64`, by its 64-bit pattern. -/
structure Float64 where
  bits : Nat
  deriving DecidableEq, Repr

/-- A `time.Time`: seconds since January 1, year 1 UTC, and nanoseconds. -/
structure Time where
  sec : Int
  nsec : Nat
  deriving DecidableEq, Repr

/-- The zero `time.Time`. -/
def Time.zero : Time := ⟨0, 0⟩

/-- The method `Time.Unix`: seconds since January 1, 1970 UTC. -/
def Time.Unix (t : Time) : Int := t.sec - 62135596800

/-- The record `GeoData` of `storage/storage.go`. -/
structure GeoData where
  ID : Nat
  Country : String
  CountryCode : String
  Region : String
  RegionName : String
  City : String
  Zip : String
  Lat : Float64
  Lon : Float64
  Timezone : String
  ISP : String
  Org : String
  AS : String
  CreatedAt : Time
  deriving DecidableEq, Repr

/-- The zero value of `GeoData`. -/
def GeoData.zero : GeoData :=
  ⟨0, "", "", "", "", "", "", ⟨0⟩, ⟨0⟩, "", "", "", "", Time.zero⟩

/-- The row type `PostgresGeoData` of `storage/postgres.go`. -/
structure PostgresGeoData where
  ID : Nat
  Hostname : String
  Country : String
  CountryCode : String
  Region : String
  RegionName : String
  City : String
  Zip : String
  Lat : Float64
  Lon : Float64
  Timezone : String
  ISP : String
  Org : String
  AS : String
  CreatedAt : Time
  deriving DecidableEq, Repr

/-- The struct `WebhookPayload` of `main.go`; `GeoData` is a pointer, `none` is nil. -/
structure WebhookPayload where
  GeoData : Option GeoData
  Hostname : String
  Timestamp : Time
  deriving DecidableEq, Repr

/-- The zero value of `WebhookPayload`. -/
def WebhookPayload.zero : WebhookPayload := ⟨none, "", Time.zero⟩

/-! ## encoding/json: the scanner -/

/-- A JSON value as the decoder sees it.  Strings and numbers keep their source
text (for a string: what stands between the quotes, escapes not yet processed). -/
inductive JSON where
  | null
  | bool (b : Bool)
  | num (lit : List Char)
  | str (raw : List Char)
  | arr (items : List JSON)
  | obj (members : List (List Char × JSON))

/-- Errors of `Decoder.Decode`: the scanner could not read a complete value
(`SyntaxError`, `io.EOF`, `io.ErrUnexpectedEOF`), or the value does not fit the
target (`UnmarshalTypeError`, or the error of an `UnmarshalJSON` method). -/
inductive DecodeError where
  | malformed
  | unmarshal
  deriving DecidableEq, Repr

/-- The scanner's `isSpace`. -/
def isSpace (c : Char) : Bool :=
  c == ' ' || c == '\t' || c == '\r' || c == '\n'

/-- Drop leading white space. -/
def skipSpace : List Char → List Char
  | [] => []
  | c :: cs => if isSpace c then skipSpace cs else c :: cs

/-- A decimal digit. -/
def isDigit (c : Char) : Bool := '0' ≤ c && c ≤ '9'

/-- A hexadecimal digit. -/
def isHex (c : Char) : Bool :=
  ('0' ≤ c && c ≤ '9') || ('a' ≤ c && c ≤ 'f') || ('A' ≤ c && c ≤ 'F')

/-- The longest run of digits at the start of the input, and what follows. -/
def spanDigits : List Char → List Char × List Char
  | [] => ([], [])
  | c :: cs =>
    if isDigit c then
      let r := spanDigits cs
      (c :: r.1, r.2)
    else ([], c :: cs)

/-- Whether a backslash and `e` make one of the two-character escapes. -/
def isEscape (e : Char) : Bool :=
  e == 'b' || e == 'f' || e == 'n' || e == 'r' || e == 't' ||
    e == '\\' || e == '/' || e == '"'

/-- The states of the scanner inside a string: `stateInString`,
`stateInStringEsc` after a backslash, and `stateInStringEscU` to
`stateInStringEscU123`, told apart by the number of hexadecimal digits still
to come. -/
inductive StringState where
  | plain
  | esc
  | hex (togo : Nat)

/-- The scanner inside a string, from the given state: the raw text up to the
closing quote, and what follows it.  A control character, a bad escape or the
end of input is an error. -/
def scanStringFrom : StringState → List Char → Option (List Char × List Char)
  | _, [] => none
  | .plain, c :: cs =>
    if c = '"' then some ([], cs)
    else if c = '\\' then (scanStringFrom .esc cs).map fun r => (c :: r.1, r.2)
    else if c.toNat < 32 then none
    else (scanStringFrom .plain cs).map fun r => (c :: r.1, r.2)
  | .esc, c :: cs =>
    if c = 'u' then (scanStringFrom (.hex 4) cs).map fun r => (c :: r.1, r.2)
    else if isEscape c then (scanStringFrom .plain cs).map fun r => (c :: r.1, r.2)
    else none
  | .hex togo, c :: cs =>
    if isHex c then
      (scanStringFrom (if togo ≤ 1 then .plain else .hex (togo - 1)) cs).map fun r =>
        (c :: r.1, r.2)
    else none

/-- The scanner on a string, after the opening quote. -/
def scanString (cs : List Char) : Option (List Char × List Char) :=
  scanStringFrom .plain cs

/-- The optional exponent of a number. -/
def scanExp : List Char → Option (List Char × List Char)
  | [] => some ([], [])
  | e :: cs =>
    if e = 'e' ∨ e = 'E' then
      match cs with
      | [] => none
      | s :: cs1 =>
        if s = '+' ∨ s = '-' then
          if (spanDigits cs1).1.isEmpty then none
          else some (e :: s :: (spanDigits cs1).1, (spanDigits cs1).2)
        else if (spanDigits cs).1.isEmpty then none
        else some (e :: (spanDigits cs).1, (spanDigits cs).2)
    else some ([], e :: cs)

/-- The optional fraction of a number, and its exponent. -/
def scanFrac : List Char → Option (List Char × List Char)
  | [] => some ([], [])
  | c :: cs =>
    if c = '.' then
      if (spanDigits cs).1.isEmpty then none
      else (scanExp (spanDigits cs).2).map fun r => (c :: (spanDigits cs).1 ++ r.1, r.2)
    else scanExp (c :: cs)

/-- A number without its sign: `0`, or a digit `1`..`9` and more digits; then
fraction and exponent. -/
def scanUnsigned : List Char → Option (List Char × List Char)
  | [] => none
  | c :: cs =>
    if c = '0' then (scanFrac cs).map fun r => (c :: r.1, r.2)
    else if isDigit c then
      (scanFrac (spanDigits cs).2).map fun r => (c :: (spanDigits cs).1 ++ r.1, r.2)
    else none

/-- A number literal at the start of the input. -/
def scanNumber : List Char → Option (List Char × List Char)
  | [] => none
  | c :: cs =>
    if c = '-' then (scanUnsigned cs).map fun r => (c :: r.1, r.2)
    else scanUnsigned (c :: cs)

/-- What is left of the input after the given characters, when it starts with
them. -/
def dropLiteral : List Char → List Char → Option (List Char)
  | [], cs => some cs
  | _ :: _, [] => none
  | l :: ls, c :: cs => if c = l then dropLiteral ls cs else none

/-- The scanner's `maxNestingDepth`. -/
def maxNestingDepth : Nat := 10000

mutual
/-- One JSON value at the start of the input (after white space), and what
follows it.  `depth` counts the enclosing arrays and objects.  The first
argument bounds the length of the input: every recursive call is on a strictly
shorter input. -/
def scanValue : Nat → Nat → List Char → Option (JSON × List Char)
  | 0, _, _ => none
  | fuel + 1, depth, cs =>
    match skipSpace cs with
    | [] => none
    | c :: rest =>
      if c = '{' then
        if depth + 1 ≤ maxNestingDepth then
          match skipSpace rest with
          | [] => none
          | c1 :: rest1 =>
            if c1 = '}' then some (.obj [], rest1)
            else (scanMembers fuel (depth + 1) (c1 :: rest1)).map fun r => (.obj r.1, r.2)
        else none
      else if c = '[' then
        if depth + 1 ≤ maxNestingDepth then
          match skipSpace rest with
          | [] => none
          | c1 :: rest1 =>
            if c1 = ']' then some (.arr [], rest1)
            else
              match scanValue fuel (depth + 1) (c1 :: rest1) with
              | none => none
              | some (v, rest2) =>
                (scanItems fuel (depth + 1) rest2).map fun r => (.arr (v :: r.1), r.2)
        else none
      else if c = '"' then (scanString rest).map fun r => (.str r.1, r.2)
      else if c = 't' then (dropLiteral ['r', 'u', 'e'] rest).map fun r => (.bool true, r)
      else if c = 'f' then
        (dropLiteral ['a', 'l', 's', 'e'] rest).map fun r => (.bool false, r)
      else if c = 'n' then (dropLiteral ['u', 'l', 'l'] rest).map fun r => (.null, r)
      else (scanNumber (c :: rest)).map fun r => (.num r.1, r.2)
/-- The members of an object from a key on, up to the closing brace. -/
def scanMembers : Nat → Nat → List Char → Option (List (List Char × JSON) × List Char)
  | 0, _, _ => none
  | fuel + 1, depth, cs =>
    match skipSpace cs with
    | [] => none
    | c :: rest =>
      if c = '"' then
        match scanString rest with
        | none => none
        | some (key, rest1) =>
          match skipSpace rest1 with
          | [] => none
          | c2 :: rest2 =>
            if c2 = ':' then
              match scanValue fuel depth rest2 with
              | none => none
              | some (v, rest3) =>
                match skipSpace rest3 with
                | [] => none
                | c4 :: rest4 =>
                  if c4 = ',' then
                    (scanMembers fuel depth rest4).map fun r => ((key, v) :: r.1, r.2)
                  else if c4 = '}' then some ([(key, v)], rest4)
                  else none
            else none
      else none
/-- The rest of an array after one of its items: a comma and the next item, and
so on, up to the closing bracket. -/
def scanItems : Nat → Nat → List Char → Option (List JSON × List Char)
  | 0, _, _ => none
  | fuel + 1, depth, cs =>
    match skipSpace cs with
    | [] => none
    | c :: rest =>
      if c = ']' then some ([], rest)
      else if c = ',' then
        match scanValue fuel depth rest with
        | none => none
        | some (v, rest1) => (scanItems fuel depth rest1).map fun r => (v :: r.1, r.2)
      else none
end

/-- The decoder's `readValue`: the first JSON value of the stream and the unread
remainder. -/
def readValue (body : List Char) : Option (JSON × List Char) :=
  scanValue (body.length + 1) 0 body

/-- Whether a body is well-formed JSON: one JSON value, with nothing but white
space around it. -/
def isWellFormedJSON (body : List Char) : Bool :=
  match readValue body with
  | none => false
  | some (_, rest) => (skipSpace rest).isEmpty

/-- Two remainders the scanner cannot tell apart by looking one character
ahead: the second is empty, or both start with the same character. -/
def SameHead (r t : List Char) : Prop :=
  t = [] ∨ ∃ c r1 t1, r = c :: r1 ∧ t = c :: t1

/-! ## RFC 8259: the grammar of JSON texts -/

/-- RFC 8259 white space: only space, tab, line feed and carriage return. -/
def IsWS (ws : List Char) : Prop := ∀ c ∈ ws, isSpace c = true

/-- The characters between the quotes of a JSON string (RFC 8259, section 7):
unescaped characters other than the quote, the backslash and the control
characters; two-character escapes; and `\u` with four hexadecimal digits. -/
inductive JChars : List Char → Prop where
  | nil : JChars []
  | unescaped (c : Char) (rest : List Char) :
      c ≠ '"' → c ≠ '\\' → 32 ≤ c.toNat → JChars rest → JChars (c :: rest)
  | escape (e : Char) (rest : List Char) :
      isEscape e = true → JChars rest → JChars ('\\' :: e :: rest)
  | unicode (h1 h2 h3 h4 : Char) (rest : List Char) :
      isHex h1 = true → isHex h2 = true → isHex h3 = true → isHex h4 = true →
      JChars rest → JChars ('\\' :: 'u' :: h1 :: h2 :: h3 :: h4 :: rest)

/-- A run of decimal digits. -/
def IsDigits (ds : List Char) : Prop := ∀ c ∈ ds, isDigit c = true

/-- The integer part of a JSON number: `0`, or a digit `1`..`9` and more
digits. -/
def JInt (int : List Char) : Prop :=
  int = ['0'] ∨ ∃ d ds, int = d :: ds ∧ isDigit d = true ∧ d ≠ '0' ∧ IsDigits ds

/-- The optional fraction of a JSON number: a decimal point and digits. -/
def JFrac (frac : List Char) : Prop :=
  frac = [] ∨ ∃ ds, ds ≠ [] ∧ IsDigits ds ∧ frac = '.' :: ds

/-- The optional exponent of a JSON number: `e` or `E`, an optional sign, and
digits. -/
def JExp (exp : List Char) : Prop :=
  exp = [] ∨ ∃ e sign ds, (e = 'e' ∨ e = 'E') ∧ (sign = [] ∨ sign = ['+'] ∨ sign = ['-']) ∧
    ds ≠ [] ∧ IsDigits ds ∧ exp = e :: (sign ++ ds)

/-- A JSON number (RFC 8259, section 6): an optional minus, the integer part,
an optional fraction and an optional exponent. -/
def JNumber (lit : List Char) : Prop :=
  ∃ minus int frac exp, lit = minus ++ (int ++ (frac ++ exp)) ∧
    (minus = [] ∨ minus = ['-']) ∧ JInt int ∧ JFrac frac ∧ JExp exp

/-- The three kinds of text of the grammar below. -/
inductive JKind where
  | value
  | elements
  | members

/-- The grammar of RFC 8259, sections 2 to 5, for texts nested at most
`maxNestingDepth` deep; the number counts the arrays and objects around the
text.  A value is a literal, a number, a string, an array or an object;
elements are values separated by commas, members are `string : value` pairs
separated by commas, both with white space allowed around every token. -/
inductive Derives : JKind → Nat → List Char → Prop where
  | litNull (d : Nat) : Derives .value d ['n', 'u', 'l', 'l']
  | litTrue (d : Nat) : Derives .value d ['t', 'r', 'u', 'e']
  | litFalse (d : Nat) : Derives .value d ['f', 'a', 'l', 's', 'e']
  | number (d : Nat) (lit : List Char) : JNumber lit → Derives .value d lit
  | string (d : Nat) (raw : List Char) : JChars raw → Derives .value d ('"' :: (raw ++ ['"']))
  | emptyArray (d : Nat) (ws : List Char) :
      d + 1 ≤ maxNestingDepth → IsWS ws → Derives .value d ('[' :: (ws ++ [']']))
  | array (d : Nat) (items : List Char) :
      d + 1 ≤ maxNestingDepth → Derives .elements (d + 1) items →
      Derives .value d ('[' :: (items ++ [']']))
  | emptyObject (d : Nat) (ws : List Char) :
      d + 1 ≤ maxNestingDepth → IsWS ws → Derives .value d ('{' :: (ws ++ ['}']))
  | object (d : Nat) (fields : List Char) :
      d + 1 ≤ maxNestingDepth → Derives .members (d + 1) fields →
      Derives .value d ('{' :: (fields ++ ['}']))
  | element (d : Nat) (ws1 v ws2 : List Char) :
      IsWS ws1 → Derives .value d v → IsWS ws2 → Derives .elements d (ws1 ++ (v ++ ws2))
  | elements (d : Nat) (ws1 v ws2 rest : List Char) :
      IsWS ws1 → Derives .value d v → IsWS ws2 → Derives .elements d rest →
      Derives .elements d (ws1 ++ (v ++ (ws2 ++ ',' :: rest)))
  | member (d : Nat) (ws1 key ws2 ws3 v ws4 : List Char) :
      IsWS ws1 → JChars key → IsWS ws2 → IsWS ws3 → Derives .value d v → IsWS ws4 →
      Derives .members d (ws1 ++ '"' :: (key ++ '"' :: (ws2 ++ ':' :: (ws3 ++ (v ++ ws4)))))
  | members (d : Nat) (ws1 key ws2 ws3 v ws4 rest : List Char) :
      IsWS ws1 → JChars key → IsWS ws2 → IsWS ws3 → Derives .value d v → IsWS ws4 →
      Derives .members d rest →
      Derives .members d
        (ws1 ++ '"' :: (key ++ '"' :: (ws2 ++ ':' :: (ws3 ++ (v ++ (ws4 ++ ',' :: rest))))))

/-- A JSON text (RFC 8259, section 2): one value with white space around it. -/
def JSONText (body : List Char) : Prop :=
  ∃ ws1 v ws2, IsWS ws1 ∧ Derives .value 0 v ∧ IsWS ws2 ∧ body = ws1 ++ (v ++ ws2)

/-- What may follow a value inside a JSON text: nothing, white space, a comma,
or a closing bracket or brace. -/
def Delim (t : List Char) : Prop :=
  ∀ c r, t = c :: r → isSpace c = true ∨ c = ',' ∨ c = ']' ∨ c = '}'

/-- A text that does not start with a digit. -/
def NoDigitHead (t : List Char) : Prop := ∀ c r, t = c :: r → isDigit c = false

/-! ## encoding/json: decoding into the payload -/

/-- The conversions of the standard library the decoder calls on leaves:
`strconv.ParseFloat(s, 64)` on a number literal (`none`: out of range) and the
RFC 3339 parse of `Time.UnmarshalJSON` on the text between the quotes (`none`:
not a valid time). -/
structure Lib where
  ParseFloat : List Char → Option Float64
  ParseTime : List Char → Option Time

/-- The value of a hexadecimal digit. -/
def hexVal (c : Char) : Nat :=
  if '0' ≤ c && c ≤ '9' then c.toNat - 48
  else if 'a' ≤ c && c ≤ 'f' then c.toNat - 87
  else c.toNat - 55

/-- The decoder's `getu4`: the number written by four hexadecimal digits. -/
def getu4 (a b c d : Char) : Nat :=
  ((hexVal a * 16 + hexVal b) * 16 + hexVal c) * 16 + hexVal d

/-- The replacement character U+FFFD. -/
def replacementChar : Char := Char.ofNat 0xFFFD

/-- What is written for a high surrogate that is still waiting for its partner
when something else arrives: U+FFFD. -/
def flushSurrogate : Option Nat → List Char
  | none => []
  | some _ => [replacementChar]

/-- The character the escape made of a backslash and `e` stands for. -/
def escapeChar (e : Char) : Char :=
  if e == 'b' then Char.ofNat 8
  else if e == 'f' then Char.ofNat 12
  else if e == 'n' then '\n'
  else if e == 'r' then '\r'
  else if e == 't' then '\t'
  else e

/-- The loop of the decoder's `unquote`.  `hi` is a high surrogate read from the
escape just before, waiting for a low surrogate to combine with
(`utf16.DecodeRune`); a surrogate that finds no partner becomes U+FFFD. -/
def unquoteFrom : Option Nat → List Char → List Char
  | hi, [] => flushSurrogate hi
  | hi, '\\' :: 'u' :: a :: b :: c :: d :: rest =>
    let rr := getu4 a b c d
    if 0xDC00 ≤ rr && rr < 0xE000 then
      match hi with
      | some h => Char.ofNat ((h - 0xD800) * 1024 + (rr - 0xDC00) + 0x10000) :: unquoteFrom none rest
      | none => replacementChar :: unquoteFrom none rest
    else if 0xD800 ≤ rr && rr < 0xDC00 then flushSurrogate hi ++ unquoteFrom (some rr) rest
    else flushSurrogate hi ++ Char.ofNat rr :: unquoteFrom none rest
  | hi, '\\' :: e :: rest => flushSurrogate hi ++ escapeChar e :: unquoteFrom none rest
  | hi, c :: rest => flushSurrogate hi ++ c :: unquoteFrom none rest

/-- The decoder's `unquote` on the raw contents of a string the scanner has
accepted: every escape is replaced by the character it stands for. -/
def unquote (raw : List Char) : List Char := unquoteFrom none raw

/-- Case folding of one character of an object key, as far as it can reach an
ASCII letter: lower case to upper case, U+017F to `S`, U+212A to `K`. -/
def foldRune (c : Char) : Char :=
  if 'a' ≤ c && c ≤ 'z' then Char.ofNat (c.toNat - 32)
  else if c.toNat == 0x17F then 'S'
  else if c.toNat == 0x212A then 'K'
  else c

/-- The decoder's `foldName`. -/
def foldName (s : List Char) : List Char := s.map foldRune

/-- Whether an object key (raw, as scanned) selects the struct field with the
given JSON name: the names are equal, or equal under case folding. -/
def keyIs (key : List Char) (name : String) : Bool :=
  foldName (unquote key) == foldName name.toList

/-- The number written by a string of decimal digits. -/
def digitsVal (lit : List Char) : Nat :=
  lit.foldl (fun n c => n * 10 + (c.toNat - 48)) 0

/-- Decode a value into a `string` field: `null` leaves the field as it is, a
JSON string sets it, anything else is an `UnmarshalTypeError`. -/
def decodeString (v : JSON) (cur : String) : Except DecodeError String :=
  match v with
  | .null => .ok cur
  | .str raw => .ok (String.mk (unquote raw))
  | _ => .error .unmarshal

/-- Decode a value into a `uint` field: the literal must pass
`strconv.ParseUint(s, 10, 64)`. -/
def decodeUint (v : JSON) (cur : Nat) : Except DecodeError Nat :=
  match v with
  | .null => .ok cur
  | .num lit =>
    if lit.all isDigit && digitsVal lit < 2 ^ 64 then .ok (digitsVal lit)
    else .error .unmarshal
  | _ => .error .unmarshal

/-- Decode a value into a `float64` field. -/
def decodeFloat (L : Lib) (v : JSON) (cur : Float64) : Except DecodeError Float64 :=
  match v with
  | .null => .ok cur
  | .num lit =>
    match L.ParseFloat lit with
    | some f => .ok f
    | none => .error .unmarshal
  | _ => .error .unmarshal

/-- Decode a value into a `time.Time` field, through `Time.UnmarshalJSON`:
`null` is a no-op, a JSON string is parsed from its raw text, anything else is
an error. -/
def decodeTime (L : Lib) (v : JSON) (cur : Time) : Except DecodeError Time :=
  match v with
  | .null => .ok cur
  | .str raw =>
    match L.ParseTime raw with
    | some t => .ok t
    | none => .error .unmarshal
  | _ => .error .unmarshal

/-- Store one object member into a `GeoData`; a key that names no field is
skipped. -/
def GeoData.setField (L : Lib) (g : GeoData) (key : List Char) (v : JSON) :
    Except DecodeError GeoData :=
  if keyIs key "id" then (decodeUint v g.ID).map fun x => { g with ID := x }
  else if keyIs key "country" then (decodeString v g.Country).map fun x => { g with Country := x }
  else if keyIs key "countryCode" then
    (decodeString v g.CountryCode).map fun x => { g with CountryCode := x }
  else if keyIs key "region" then (decodeString v g.Region).map fun x => { g with Region := x }
  else if keyIs key "regionName" then
    (decodeString v g.RegionName).map fun x => { g with RegionName := x }
  else if keyIs key "city" then (decodeString v g.City).map fun x => { g with City := x }
  else if keyIs key "zip" then (decodeString v g.Zip).map fun x => { g with Zip := x }
  else if keyIs key "lat" then (decodeFloat L v g.Lat).map fun x => { g with Lat := x }
  else if keyIs key "lon" then (decodeFloat L v g.Lon).map fun x => { g with Lon := x }
  else if keyIs key "timezone" then
    (decodeString v g.Timezone).map fun x => { g with Timezone := x }
  else if keyIs key "isp" then (decodeString v g.ISP).map fun x => { g with ISP := x }
  else if keyIs key "org" then (decodeString v g.Org).map fun x => { g with Org := x }
  else if keyIs key "as" then (decodeString v g.AS).map fun x => { g with AS := x }
  else if keyIs key "created_at" then
    (decodeTime L v g.CreatedAt).map fun x => { g with CreatedAt := x }
  else .ok g

/-- Decode the members of an object, in order, into a `GeoData`. -/
def decodeGeoData (L : Lib) : List (List Char × JSON) → GeoData → Except DecodeError GeoData
  | [], g => .ok g
  | (k, v) :: ms, g =>
    match GeoData.setField L g k v with
    | .error e => .error e
    | .ok g1 => decodeGeoData L ms g1

/-- Store one object member into a `WebhookPayload`.  For `geo_data`, `null`
sets the pointer to nil and an object is decoded into the record the pointer
holds, a new zero record when it is nil. -/
def WebhookPayload.setField (L : Lib) (p : WebhookPayload) (key : List Char) (v : JSON) :
    Except DecodeError WebhookPayload :=
  if keyIs key "geo_data" then
    match v with
    | .null => .ok { p with GeoData := none }
    | .obj ms =>
      (decodeGeoData L ms (p.GeoData.getD GeoData.zero)).map fun g =>
        { p with GeoData := some g }
    | _ => .error .unmarshal
  else if keyIs key "hostname" then
    (decodeString v p.Hostname).map fun x => { p with Hostname := x }
  else if keyIs key "timestamp" then
    (decodeTime L v p.Timestamp).map fun x => { p with Timestamp := x }
  else .ok p

/-- Decode the members of an object, in order, into a `WebhookPayload`. -/
def decodePayload (L : Lib) :
    List (List Char × JSON) → WebhookPayload → Except DecodeError WebhookPayload
  | [], p => .ok p
  | (k, v) :: ms, p =>
    match WebhookPayload.setField L p k v with
    | .error e => .error e
    | .ok p1 => decodePayload L ms p1

/-- The decoder's `unmarshal` into a fresh `WebhookPayload`: `null` leaves it
zero, an object fills it, any other value is an `UnmarshalTypeError`. -/
def unmarshal (L : Lib) (v : JSON) : Except DecodeError WebhookPayload :=
  match v with
  | .null => .ok WebhookPayload.zero
  | .obj ms => decodePayload L ms WebhookPayload.zero
  | _ => .error .unmarshal

/-- The call `json.NewDecoder(r.Body).Decode(&payload)`: reads the first JSON
value of the body and decodes it; what follows that value is not read. -/
def Decode (L : Lib) (body : List Char) : Except DecodeError WebhookPayload :=
  match readValue body with
  | none => .error .malformed
  | some (v, _) => unmarshal L v

/-! ## The storage interface and the gorm handle -/

/-- What a call returns that may change the state behind a handle and may fail:
the state afterwards and the Go `error` (`none` is nil). -/
structure OpResult (σ : Type) where
  store : σ
  err : Option Error

/-- What `Save` returns: the state afterwards, the caller's record afterwards
(it is passed by pointer) and the error. -/
structure SaveResult (σ : Type) where
  store : σ
  data : GeoData
  err : Option Error

/-- The interface `Storage` of `storage/storage.go`, over a state `σ`.  The
context argument only carries cancellation, which shows as an error of the
call. -/
structure Storage (σ : Type) where
  Save : σ → String → GeoData → SaveResult σ
  Close : σ → OpResult σ
  Ping : σ → OpResult σ

/-- What `db.Create(pgData)` returns: the database afterwards, the row struct
afterwards (it is passed by pointer) and `result.Error`. -/
structure CreateResult (σ : Type) where
  db : σ
  value : PostgresGeoData
  err : Option Error

/-- The operations of gorm and `database/sql` the adapter calls, over the state
`σ` of the database behind the handle: `gorm.Open(postgres.Open(dsn), ...)`,
`db.AutoMigrate(&PostgresGeoData{})`, `db.Exec(sql).Error`,
`db.WithContext(ctx).Create(pgData)`, the error of `db.DB()`, and
`PingContext` and `Close` of the `*sql.DB`. -/
structure Gorm (σ : Type) where
  Open : String → Except Error σ
  AutoMigrate : σ → OpResult σ
  Exec : σ → String → OpResult σ
  Create : σ → PostgresGeoData → CreateResult σ
  DB : σ → Option Error
  PingContext : σ → OpResult σ
  CloseDB : σ → OpResult σ

/-! ## storage/postgres.go -/

/-- The slice `indexes` of `createOptimizedIndexes`. -/
def indexes : List String :=
  ["CREATE INDEX IF NOT EXISTS idx_isp_country ON geodata(isp, country)",
   "CREATE INDEX IF NOT EXISTS idx_geo_location ON geodata(country, region, city)",
   "CREATE INDEX IF NOT EXISTS idx_created_at_brin ON geodata USING BRIN (created_at)",
   "CREATE INDEX IF NOT EXISTS idx_lat_lon_gist ON geodata USING GIST (point(lat, lon))"]

/-- The loop `for _, idx := range indexes` of `createOptimizedIndexes`: the
statements are executed in order, the first failure is returned wrapped. -/
def execIndexes {σ : Type} (G : Gorm σ) : List String → σ → OpResult σ
  | [], db => ⟨db, none⟩
  | idx :: rest, db =>
    match (G.Exec db idx).err with
    | some err => ⟨(G.Exec db idx).store, some (.wrapf "failed to create index: " err)⟩
    | none => execIndexes G rest (G.Exec db idx).store

/-- What `createOptimizedIndexes` returns, and what it prints on standard
output. -/
structure IndexResult (σ : Type) where
  db : σ
  err : Option Error
  stdout : List String

/-- The function `createOptimizedIndexes`. -/
def createOptimizedIndexes {σ : Type} (G : Gorm σ) (db : σ) : IndexResult σ :=
  match (execIndexes G indexes db).err with
  | some err => ⟨(execIndexes G indexes db).store, some err, []⟩
  | none =>
    let analyzed := G.Exec (execIndexes G indexes db).store "ANALYZE geodata"
    match analyzed.err with
    | some err =>
      ⟨analyzed.store, none, ["Warning: failed to analyze table: " ++ err.Error ++ "\n"]⟩
    | none => ⟨analyzed.store, none, []⟩

/-- What `NewPostgresStorage` returns: the handle (`none` is nil) and the error,
and what was printed on standard output. -/
structure NewResult (σ : Type) where
  storage : Option σ
  err : Option Error
  stdout : List String

/-- The connection string built by `fmt.Sprintf` in `NewPostgresStorage`. -/
def dsnOf (host port user password dbname sslmode : String) : String :=
  "host=" ++ host ++ " port=" ++ port ++ " user=" ++ user ++ " password=" ++ password ++
    " dbname=" ++ dbname ++ " sslmode=" ++ sslmode

/-- The constructor `NewPostgresStorage`. -/
def NewPostgresStorage {σ : Type} (G : Gorm σ)
    (host port user password dbname sslmode : String) : NewResult σ :=
  match G.Open (dsnOf host port user password dbname sslmode) with
  | .error err => ⟨none, some err, []⟩
  | .ok db =>
    match (G.AutoMigrate db).err with
    | some err => ⟨none, some err, []⟩
    | none =>
      let r := createOptimizedIndexes G (G.AutoMigrate db).store
      match r.err with
      | some err => ⟨none, some err, r.stdout⟩
      | none => ⟨some r.db, none, r.stdout⟩

/-- The struct literal `&PostgresGeoData{...}` of `Save`: the fields it does not
name, `ID` and `CreatedAt`, have their zero values. -/
def pgDataOf (hostname : String) (data : GeoData) : PostgresGeoData :=
  { ID := 0
    Hostname := hostname
    Country := data.Country
    CountryCode := data.CountryCode
    Region := data.Region
    RegionName := data.RegionName
    City := data.City
    Zip := data.Zip
    Lat := data.Lat
    Lon := data.Lon
    Timezone := data.Timezone
    ISP := data.ISP
    Org := data.Org
    AS := data.AS
    CreatedAt := Time.zero }

/-- The method `PostgresStorage.Save`. -/
def PostgresStorage.Save {σ : Type} (G : Gorm σ) (p : σ) (hostname : String)
    (data : GeoData) : SaveResult σ :=
  let result := G.Create p (pgDataOf hostname data)
  match result.err with
  | some err => ⟨result.db, data, some err⟩
  | none =>
    ⟨result.db, { data with ID := result.value.ID, CreatedAt := result.value.CreatedAt }, none⟩

/-- The method `PostgresStorage.Close`. -/
def PostgresStorage.Close {σ : Type} (G : Gorm σ) (p : σ) : OpResult σ :=
  match G.DB p with
  | some err => ⟨p, some err⟩
  | none => G.CloseDB p

/-- The method `PostgresStorage.Ping`. -/
def PostgresStorage.Ping {σ : Type} (G : Gorm σ) (p : σ) : OpResult σ :=
  match G.DB p with
  | some err => ⟨p, some err⟩
  | none => G.PingContext p

/-- The adapter `*PostgresStorage` as a `Storage`. -/
def PostgresStorage {σ : Type} (G : Gorm σ) : Storage σ :=
  { Save := PostgresStorage.Save G
    Close := PostgresStorage.Close G
    Ping := PostgresStorage.Ping G }

/-! ## main.go: the handlers -/

/-- A value of a JSON response body. -/
inductive JVal where
  | str (s : String)
  | uint (n : Nat)
  | int (n : Int)
  deriving DecidableEq, Repr

/-- A response body: the line written by `http.Error`, or the map handed to
`json.NewEncoder(w).Encode`. -/
inductive Body where
  | text (line : String)
  | json (fields : List (String × JVal))
  deriving DecidableEq, Repr

/-- An HTTP response: status code, the `Content-Type` header the handler set,
and the body. -/
structure Response where
  status : Nat
  contentType : Option String
  body : Body
  deriving DecidableEq, Repr

/-- A line written with `log.Printf`: `"Failed to insert data: %v"`, or
`"Successfully added GeoData: ID=%d, Country=%s, City=%s, ISP=%s"`. -/
inductive LogLine where
  | insertFailed (err : Error)
  | added (id : Nat) (country city isp : String)
  deriving DecidableEq, Repr

/-- What handling one request leaves behind: the response, the log lines, and
the state of the storage handle. -/
structure Handled (σ : Type) where
  resp : Response
  log : List LogLine
  store : σ

/-- The constant `http.StatusOK`. -/
def StatusOK : Nat := 200

/-- The constant `http.StatusCreated`. -/
def StatusCreated : Nat := 201

/-- The constant `http.StatusBadRequest`. -/
def StatusBadRequest : Nat := 400

/-- The constant `http.StatusInternalServerError`. -/
def StatusInternalServerError : Nat := 500

/-- The constant `http.StatusServiceUnavailable`. -/
def StatusServiceUnavailable : Nat := 503

/-- The response written by `http.Error(w, msg, code)`. -/
def httpError (msg : String) (code : Nat) : Response :=
  ⟨code, some "text/plain; charset=utf-8", .text msg⟩

/-- The handler `handleWebhook`, against the storage handle `store` of the
implementation `S`, for a request with the given body. -/
def handleWebhook {σ : Type} (L : Lib) (S : Storage σ) (store : σ) (body : List Char) :
    Handled σ :=
  match Decode L body with
  | .error _ => ⟨httpError "Invalid request body" StatusBadRequest, [], store⟩
  | .ok payload =>
    if payload.Hostname = "" then
      ⟨httpError "Missing hostname in payload" StatusBadRequest, [], store⟩
    else
      match payload.GeoData with
      | none => ⟨httpError "Missing geo_data in payload" StatusBadRequest, [], store⟩
      | some data =>
        let saved := S.Save store payload.Hostname data
        match saved.err with
        | some err =>
          ⟨httpError "Failed to save data" StatusInternalServerError,
            [.insertFailed err], saved.store⟩
        | none =>
          ⟨⟨StatusCreated, some "application/json",
              .json [("status", .str "success"),
                     ("message", .str "Data saved successfully"),
                     ("id", .uint saved.data.ID)]⟩,
            [.added saved.data.ID saved.data.Country saved.data.City saved.data.ISP],
            saved.store⟩

/-- The handler `handleHealth`; `now` is what `time.Now()` returns. -/
def handleHealth {σ : Type} (S : Storage σ) (store : σ) (now : Time) : Handled σ :=
  match (S.Ping store).err with
  | some _ =>
    ⟨⟨StatusServiceUnavailable, none,
        .json [("status", .str "unhealthy"), ("storage", .str "disconnected")]⟩,
      [], (S.Ping store).store⟩
  | none =>
    ⟨⟨StatusOK, some "application/json",
        .json [("status", .str "healthy"),
               ("storage", .str "connected"),
               ("storage_type", .str "postgres"),
               ("timestamp", .int now.Unix)]⟩,
      [], (S.Ping store).store⟩

/-! ## A reference backend -/

/-- The database behind the handle, reduced to what the adapter can observe:
the rows of table `geodata` in insertion order, the last value of the sequence
behind the primary key, the clock, the error every statement fails with while
the connection is lost or closed, and the backend's verdict on a row it is
asked to insert (a constraint it enforces, a cancelled context). -/
structure PG where
  rows : List PostgresGeoData
  seq : Nat
  clock : Time
  down : Option Error
  refuse : PostgresGeoData → Option Error

/-- A fresh, empty database with a live connection. -/
def PG.empty : PG := ⟨[], 0, Time.zero, none, fun _ => none⟩

/-- An insert through gorm: a row handed over with `ID` zero gets the next
value of the sequence, one with `CreatedAt` zero gets the current time
(`autoCreateTime`); the primary key admits no second row with the same `ID`. -/
def PG.Create (db : PG) (v : PostgresGeoData) : CreateResult PG :=
  match db.down with
  | some err => ⟨db, v, some err⟩
  | none =>
    match db.refuse v with
    | some err => ⟨db, v, some err⟩
    | none =>
      let row : PostgresGeoData :=
        { v with
          ID := if v.ID = 0 then db.seq + 1 else v.ID
          CreatedAt := if v.CreatedAt = Time.zero then db.clock else v.CreatedAt }
      if db.rows.any (fun r => r.ID == row.ID) then
        ⟨db, v, some (.text "duplicate key value violates unique constraint")⟩
      else
        ⟨{ db with rows := db.rows ++ [row], seq := if v.ID = 0 then db.seq + 1 else db.seq },
          row, none⟩

/-- The reference backend: statements other than the insert change nothing and
fail exactly while the connection is down; closing takes the connection down. -/
def pgModel : Gorm PG :=
  { Open := fun _ => .ok PG.empty
    AutoMigrate := fun db => ⟨db, db.down⟩
    Exec := fun db _ => ⟨db, db.down⟩
    Create := PG.Create
    DB := fun _ => none
    PingContext := fun db => ⟨db, db.down⟩
    CloseDB := fun db => ⟨{ db with down := some (.text "sql: database is closed") }, none⟩ }

/-- The conversions of the three literals of the example request below; this
table holds nothing else. -/
def exampleLib : Lib :=
  { ParseFloat := fun lit =>
      if lit = "39.04".toList then some ⟨0x4043851EB851EB85⟩
      else if lit = "-77.48".toList then some ⟨0xC0535EB851EB851F⟩
      else none
    ParseTime := fun raw =>
      if raw = "2024-01-01T00:00:00Z".toList then some ⟨63839664000, 0⟩ else none }

/-- The example request body:
`{"geo_data":{"country":"US","city":"Ashburn","lat":39.04,"lon":-77.48,"isp":"Amazon"},"hostname":"host-1","timestamp":"2024-01-01T00:00:00Z"}`. -/
def exampleBody : List Char :=
  ("\x7b\"geo_data\":\x7b\"country\":\"US\",\"city\":\"Ashburn\",\"lat\":39.04," ++
    "\"lon\":-77.48,\"isp\":\"Amazon\"\x7d,\"hostname\":\"host-1\"," ++
    "\"timestamp\":\"2024-01-01T00:00:00Z\"\x7d").toList

/-- The record the example body decodes to. -/
def exampleData : GeoData :=
  { GeoData.zero with
    Country := "US", City := "Ashburn", Lat := ⟨0x4043851EB851EB85⟩,
    Lon := ⟨0xC0535EB851EB851F⟩, ISP := "Amazon" }

/-- The payload the example body decodes to. -/
def examplePayload : WebhookPayload := ⟨some exampleData, "host-1", ⟨63839664000, 0⟩⟩

/-- A body without a hostname: `{"geo_data":{}}`. -/
def bodyNoHostname : List Char := "\x7b\"geo_data\":\x7b\x7d\x7d".toList

/-- A body that breaks off inside its first value: `{"hostname":"host-1"`. -/
def bodyTruncated : List Char := "\x7b\"hostname\":\"host-1\"".toList

/-- A well-formed object: `{"geo_data":{},"hostname":"host-1"}`. -/
def bodyObject : List Char :=
  "\x7b\"geo_data\":\x7b\x7d,\"hostname\":\"host-1\"\x7d".toList

/-- A well-formed object followed by bytes that are not JSON:
`{"geo_data":{},"hostname":"host-1"}xyz`. -/
def bodyTrailing : List Char :=
  "\x7b\"geo_data\":\x7b\x7d,\"hostname\":\"host-1\"\x7dxyz".toList

/-- A gorm handle that does nothing but keep the row it was last asked to
insert. -/
def recorder : Gorm (Option PostgresGeoData) :=
  { Open := fun _ => .ok none
    AutoMigrate := fun s => ⟨s, none⟩
    Exec := fun s _ => ⟨s, none⟩
    Create := fun _ v => ⟨some v, v, none⟩
    DB := fun _ => none
    PingContext := fun s => ⟨s, none⟩
    CloseDB := fun s => ⟨s, none⟩ }

/-- The state of the database after the statements have been executed in
order. -/
def execState {σ : Type} (G : Gorm σ) : List String → σ → σ
  | [], db => db
  | q :: rest, db => execState G rest (G.Exec db q).store

/-- Statement number `k` of the list (counted from 0) fails when it is executed
after the statements before it. -/
def failsAt {σ : Type} (G : Gorm σ) (stmts : List String) (db : σ) (k : Nat) : Prop :=
  ∃ q, stmts.get? k = some q ∧ (G.Exec (execState G (stmts.take k) db) q).err ≠ none

/-- What the adapter relies on from the table behind the handle, read through
`rows`: an insert that is accepted appends exactly one row, the one handed
back; that row has the columns it was given, apart from `ID` and `CreatedAt`;
and its `ID` is held by no earlier row (primary key). -/
def InsertLaw {σ : Type} (G : Gorm σ) (rows : σ → List PostgresGeoData) : Prop :=
  ∀ db v, (G.Create db v).err = none →
    rows (G.Create db v).db = rows db ++ [(G.Create db v).value] ∧
    (∀ r ∈ rows db, r.ID ≠ (G.Create db v).value.ID) ∧
    ∃ id t, (G.Create db v).value = { v with ID := id, CreatedAt := t }

/-- A record whose `ID` and `CreatedAt` were supplied by the caller. -/
def suppliedData : GeoData := { exampleData with ID := 99, CreatedAt := ⟨5, 0⟩ }

/-- The reference backend one second after the start of year 1, its sequence at
41. -/
def usedPG : PG := { PG.empty with seq := 41, clock := ⟨1, 0⟩ }

/-- A handle whose connection was lost. -/
def downPG : PG := { PG.empty with down := some (.text "connection refused") }

/-- A gorm handle on which exactly the given statement fails. -/
def failingOn (stmt : String) : Gorm PG :=
  { pgModel with
    Exec := fun db q => if q = stmt then ⟨db, some (.text "statement failed")⟩ else ⟨db, db.down⟩ }

/-! ## Theorems -/

set_option maxRecDepth 100000

/-! ### The scanner never runs out of fuel -/

/-- Dropping white space does not lengthen the input. -/
theorem skipSpace_length (cs : List Char) : (skipSpace cs).length ≤ cs.length := by
  induction cs with
  | nil => simp [skipSpace]
  | cons c cs ih =>
    unfold skipSpace
    split
    · exact Nat.le_succ_of_le ih
    · exact Nat.le_refl _

/-- What follows the first character after white space is shorter than the input. -/
theorem skipSpace_cons_length {cs rest : List Char} {c : Char} (h : skipSpace cs = c :: rest) :
    rest.length < cs.length := by
  have := skipSpace_length cs
  rw [h] at this
  simpa using this

/-- What follows a run of digits is no longer than the input. -/
theorem spanDigits_length (cs : List Char) : (spanDigits cs).2.length ≤ cs.length := by
  induction cs with
  | nil => simp [spanDigits]
  | cons c cs ih =>
    unfold spanDigits
    split
    · exact Nat.le_succ_of_le ih
    · exact Nat.le_refl _

/-- From every state, a scanned string consumes at least its closing quote. -/
theorem scanStringFrom_length (cs : List Char) :
    ∀ (st : StringState) (raw rest : List Char),
      scanStringFrom st cs = some (raw, rest) → rest.length < cs.length := by
  induction cs with
  | nil =>
    intro st raw rest h
    cases st <;> simp [scanStringFrom] at h
  | cons c cs ih =>
    intro st raw rest h
    have step : ∀ st2, Option.map (fun r => (c :: r.1, r.2)) (scanStringFrom st2 cs) =
        some (raw, rest) → rest.length < (c :: cs).length := by
      intro st2 h2
      simp only [Option.map_eq_some', Prod.mk.injEq] at h2
      obtain ⟨⟨r1, r2⟩, hr, -, rfl⟩ := h2
      have := ih st2 r1 r2 hr
      simp only [List.length_cons]
      omega
    cases st with
    | plain =>
      rw [scanStringFrom] at h
      split at h
      · simp only [Option.some.injEq, Prod.mk.injEq] at h
        rw [← h.2]
        simp
      · split at h
        · exact step _ h
        · split at h
          · simp at h
          · exact step _ h
    | esc =>
      rw [scanStringFrom] at h
      split at h
      · exact step _ h
      · split at h
        · exact step _ h
        · simp at h
    | hex togo =>
      rw [scanStringFrom] at h
      split at h
      · exact step _ h
      · simp at h

/-- A scanned string consumes at least its closing quote. -/
theorem scanString_length (cs raw rest : List Char)
    (h : scanString cs = some (raw, rest)) : rest.length < cs.length :=
  scanStringFrom_length cs .plain raw rest h

/-- What follows an exponent is no longer than the input. -/
theorem scanExp_length (cs lit rest : List Char) (h : scanExp cs = some (lit, rest)) :
    rest.length ≤ cs.length := by
  cases cs with
  | nil => simp [scanExp] at h; simp [h]
  | cons e cs =>
    simp only [scanExp] at h
    split at h
    · split at h
      · simp at h
      · rename_i s cs1
        split at h
        · split at h
          · simp at h
          · simp only [Option.some.injEq, Prod.mk.injEq] at h
            rw [← h.2]
            have := spanDigits_length cs1
            simp only [List.length_cons]; omega
        · split at h
          · simp at h
          · simp only [Option.some.injEq, Prod.mk.injEq] at h
            rw [← h.2]
            have := spanDigits_length (s :: cs1)
            simp only [List.length_cons] at this ⊢; omega
    · simp only [Option.some.injEq, Prod.mk.injEq] at h
      rw [← h.2]

/-- What follows a fraction is no longer than the input. -/
theorem scanFrac_length (cs lit rest : List Char) (h : scanFrac cs = some (lit, rest)) :
    rest.length ≤ cs.length := by
  cases cs with
  | nil => simp [scanFrac] at h; simp [h]
  | cons c cs =>
    simp only [scanFrac] at h
    split at h
    · split at h
      · simp at h
      · simp only [Option.map_eq_some', Prod.mk.injEq] at h
        obtain ⟨⟨r1, r2⟩, hr, -, rfl⟩ := h
        have h1 := scanExp_length _ _ _ hr
        have h2 := spanDigits_length cs
        simp only [List.length_cons]; omega
    · exact scanExp_length _ _ _ h

/-- A scanned number without sign consumes at least one character. -/
theorem scanUnsigned_length (cs lit rest : List Char) (h : scanUnsigned cs = some (lit, rest)) :
    rest.length < cs.length := by
  cases cs with
  | nil => simp [scanUnsigned] at h
  | cons c cs =>
    simp only [scanUnsigned] at h
    split at h
    · simp only [Option.map_eq_some', Prod.mk.injEq] at h
      obtain ⟨⟨r1, r2⟩, hr, -, rfl⟩ := h
      have h1 := scanFrac_length _ _ _ hr
      simp only [List.length_cons]; omega
    · split at h
      · simp only [Option.map_eq_some', Prod.mk.injEq] at h
        obtain ⟨⟨r1, r2⟩, hr, -, rfl⟩ := h
        have h1 := scanFrac_length _ _ _ hr
        have h2 := spanDigits_length cs
        simp only [List.length_cons]; omega
      · simp at h

/-- A scanned number consumes at least one character. -/
theorem scanNumber_length (cs lit rest : List Char) (h : scanNumber cs = some (lit, rest)) :
    rest.length < cs.length := by
  cases cs with
  | nil => simp [scanNumber] at h
  | cons c cs =>
    simp only [scanNumber] at h
    split at h
    · simp only [Option.map_eq_some', Prod.mk.injEq] at h
      obtain ⟨⟨r1, r2⟩, hr, -, rfl⟩ := h
      have h1 := scanUnsigned_length _ _ _ hr
      simp only [List.length_cons]; omega
    · exact scanUnsigned_length _ _ _ h

/-- What follows a literal is no longer than the input. -/
theorem dropLiteral_length (ls cs rest : List Char) (h : dropLiteral ls cs = some rest) :
    rest.length ≤ cs.length := by
  induction ls generalizing cs with
  | nil => simp [dropLiteral] at h; simp [h]
  | cons l ls ih =>
    cases cs with
    | nil => simp [dropLiteral] at h
    | cons c cs =>
      simp only [dropLiteral] at h
      split at h
      · have := ih _ h
        simp only [List.length_cons]; omega
      · simp at h

/-- A scanned value, member list or item list consumes at least one character. -/
theorem scan_length (f : Nat) :
    (∀ d cs v r, scanValue f d cs = some (v, r) → r.length < cs.length) ∧
    (∀ d cs ms r, scanMembers f d cs = some (ms, r) → r.length < cs.length) ∧
    (∀ d cs it r, scanItems f d cs = some (it, r) → r.length < cs.length) := by
  induction f with
  | zero =>
    refine ⟨?_, ?_, ?_⟩ <;> intro d cs v r h
    · simp [scanValue] at h
    · simp [scanMembers] at h
    · simp [scanItems] at h
  | succ f ih =>
    obtain ⟨ihV, ihM, ihI⟩ := ih
    refine ⟨?_, ?_, ?_⟩
    · intro d cs v r h
      rw [scanValue] at h
      split at h
      · simp at h
      · rename_i c rest hsk
        have h0 := skipSpace_cons_length hsk
        split at h
        · split at h
          · split at h
            · simp at h
            · rename_i c1 rest1 hsk1
              have h1 := skipSpace_length rest
              rw [hsk1] at h1
              simp only [List.length_cons] at h1
              split at h
              · simp only [Option.some.injEq, Prod.mk.injEq] at h
                rw [← h.2]; omega
              · simp only [Option.map_eq_some', Prod.mk.injEq] at h
                obtain ⟨⟨r1, r2⟩, hr, -, rfl⟩ := h
                have := ihM _ _ _ _ hr
                simp only [List.length_cons] at this ⊢; omega
          · simp at h
        · split at h
          · split at h
            · split at h
              · simp at h
              · rename_i c1 rest1 hsk1
                have h1 := skipSpace_length rest
                rw [hsk1] at h1
                simp only [List.length_cons] at h1
                split at h
                · simp only [Option.some.injEq, Prod.mk.injEq] at h
                  rw [← h.2]; omega
                · split at h
                  · simp at h
                  · rename_i v1 rest2 hv
                    simp only [Option.map_eq_some', Prod.mk.injEq] at h
                    obtain ⟨⟨r1, r2⟩, hr, -, rfl⟩ := h
                    have h2 := ihV _ _ _ _ hv
                    have h3 := ihI _ _ _ _ hr
                    simp only [List.length_cons] at h2 ⊢; omega
            · simp at h
          · split at h
            · simp only [Option.map_eq_some', Prod.mk.injEq] at h
              obtain ⟨⟨r1, r2⟩, hr, -, rfl⟩ := h
              have := scanString_length _ _ _ hr
              simp only; omega
            · split at h
              · simp only [Option.map_eq_some', Prod.mk.injEq] at h
                obtain ⟨r1, hr, -, rfl⟩ := h
                have := dropLiteral_length _ _ _ hr
                omega
              · split at h
                · simp only [Option.map_eq_some', Prod.mk.injEq] at h
                  obtain ⟨r1, hr, -, rfl⟩ := h
                  have := dropLiteral_length _ _ _ hr
                  omega
                · split at h
                  · simp only [Option.map_eq_some', Prod.mk.injEq] at h
                    obtain ⟨r1, hr, -, rfl⟩ := h
                    have := dropLiteral_length _ _ _ hr
                    omega
                  · simp only [Option.map_eq_some', Prod.mk.injEq] at h
                    obtain ⟨⟨r1, r2⟩, hr, -, rfl⟩ := h
                    have := scanNumber_length _ _ _ hr
                    simp only [List.length_cons] at this ⊢; omega
    · intro d cs ms r h
      rw [scanMembers] at h
      split at h
      · simp at h
      · rename_i c rest hsk
        have h0 := skipSpace_cons_length hsk
        split at h
        · split at h
          · simp at h
          · rename_i key rest1 hkey
            have h1 := scanString_length _ _ _ hkey
            split at h
            · simp at h
            · rename_i c2 rest2 hsk2
              have h2 := skipSpace_cons_length hsk2
              split at h
              · split at h
                · simp at h
                · rename_i v rest3 hv
                  have h3 := ihV _ _ _ _ hv
                  split at h
                  · simp at h
                  · rename_i c4 rest4 hsk4
                    have h4 := skipSpace_cons_length hsk4
                    split at h
                    · simp only [Option.map_eq_some', Prod.mk.injEq] at h
                      obtain ⟨⟨r1, r2⟩, hr, -, rfl⟩ := h
                      have := ihM _ _ _ _ hr
                      simp only; omega
                    · split at h
                      · simp only [Option.some.injEq, Prod.mk.injEq] at h
                        rw [← h.2]; omega
                      · simp at h
              · simp at h
        · simp at h
    · intro d cs it r h
      rw [scanItems] at h
      split at h
      · simp at h
      · rename_i c rest hsk
        have h0 := skipSpace_cons_length hsk
        split at h
        · simp only [Option.some.injEq, Prod.mk.injEq] at h
          rw [← h.2]; omega
        · split at h
          · split at h
            · simp at h
            · rename_i v rest1 hv
              have h1 := ihV _ _ _ _ hv
              simp only [Option.map_eq_some', Prod.mk.injEq] at h
              obtain ⟨⟨r1, r2⟩, hr, -, rfl⟩ := h
              have := ihI _ _ _ _ hr
              simp only; omega
          · simp at h

/-- The empty input holds no value, whatever the bound. -/
theorem scan_nil (f d : Nat) :
    scanValue f d [] = none ∧ scanMembers f d [] = none ∧ scanItems f d [] = none := by
  cases f with
  | zero => simp [scanValue, scanMembers, scanItems]
  | succ f =>
    refine ⟨?_, ?_, ?_⟩
    · rw [scanValue]; simp [skipSpace]
    · rw [scanMembers]; simp [skipSpace]
    · rw [scanItems]; simp [skipSpace]

/-- Two bounds that are both at least the length of the input give the same
result: the scanner never stops for lack of fuel. -/
theorem scan_fuel (f1 : Nat) : ∀ f2 : Nat,
    (∀ d cs, cs.length ≤ f1 → cs.length ≤ f2 → scanValue f1 d cs = scanValue f2 d cs) ∧
    (∀ d cs, cs.length ≤ f1 → cs.length ≤ f2 → scanMembers f1 d cs = scanMembers f2 d cs) ∧
    (∀ d cs, cs.length ≤ f1 → cs.length ≤ f2 → scanItems f1 d cs = scanItems f2 d cs) := by
  induction f1 with
  | zero =>
    intro f2
    refine ⟨?_, ?_, ?_⟩ <;> intro d cs h1 _ <;>
      (have hnil : cs = [] := List.eq_nil_of_length_eq_zero (Nat.le_zero.1 h1)
       subst hnil)
    · rw [(scan_nil 0 d).1, (scan_nil f2 d).1]
    · rw [(scan_nil 0 d).2.1, (scan_nil f2 d).2.1]
    · rw [(scan_nil 0 d).2.2, (scan_nil f2 d).2.2]
  | succ f1 ih =>
    intro f2
    cases f2 with
    | zero =>
      refine ⟨?_, ?_, ?_⟩ <;> intro d cs _ h2 <;>
        (have hnil : cs = [] := List.eq_nil_of_length_eq_zero (Nat.le_zero.1 h2)
         subst hnil)
      · rw [(scan_nil 0 d).1, (scan_nil (f1 + 1) d).1]
      · rw [(scan_nil 0 d).2.1, (scan_nil (f1 + 1) d).2.1]
      · rw [(scan_nil 0 d).2.2, (scan_nil (f1 + 1) d).2.2]
    | succ f2 =>
      obtain ⟨ihV, ihM, ihI⟩ := ih f2
      refine ⟨?_, ?_, ?_⟩
      · intro d cs h1 h2
        rw [scanValue, scanValue]
        cases hsk : skipSpace cs with
        | nil => rfl
        | cons c rest =>
          have h0 := skipSpace_cons_length hsk
          simp only
          cases hsk1 : skipSpace rest with
          | nil => rfl
          | cons c1 rest1 =>
            have h3 := skipSpace_length rest
            rw [hsk1] at h3
            simp only [List.length_cons] at h3
            have hm := ihM (d + 1) (c1 :: rest1) (by simp only [List.length_cons]; omega)
              (by simp only [List.length_cons]; omega)
            have hv := ihV (d + 1) (c1 :: rest1) (by simp only [List.length_cons]; omega)
              (by simp only [List.length_cons]; omega)
            simp only [hm, hv]
            cases hval : scanValue f2 (d + 1) (c1 :: rest1) with
            | none => rfl
            | some r =>
              obtain ⟨v, rest2⟩ := r
              have h4 := (scan_length f2).1 _ _ _ _ hval
              simp only [List.length_cons] at h4
              have hi := ihI (d + 1) rest2 (by omega) (by omega)
              simp only [hi]
      · intro d cs h1 h2
        rw [scanMembers, scanMembers]
        cases hsk : skipSpace cs with
        | nil => rfl
        | cons c rest =>
          have h0 := skipSpace_cons_length hsk
          simp only
          cases hkey : scanString rest with
          | none => rfl
          | some kr =>
            obtain ⟨key, rest1⟩ := kr
            have h3 := scanString_length _ _ _ hkey
            simp only
            cases hsk2 : skipSpace rest1 with
            | nil => rfl
            | cons c2 rest2 =>
              have h4 := skipSpace_cons_length hsk2
              have hv := ihV d rest2 (by omega) (by omega)
              simp only [hv]
              cases hval : scanValue f2 d rest2 with
              | none => rfl
              | some r =>
                obtain ⟨v, rest3⟩ := r
                have h5 := (scan_length f2).1 _ _ _ _ hval
                simp only
                cases hsk4 : skipSpace rest3 with
                | nil => rfl
                | cons c4 rest4 =>
                  have h6 := skipSpace_cons_length hsk4
                  have hm := ihM d rest4 (by omega) (by omega)
                  simp only [hm]
      · intro d cs h1 h2
        rw [scanItems, scanItems]
        cases hsk : skipSpace cs with
        | nil => rfl
        | cons c rest =>
          have h0 := skipSpace_cons_length hsk
          have hv := ihV d rest (by omega) (by omega)
          simp only [hv]
          cases hval : scanValue f2 d rest with
          | none => rfl
          | some r =>
            obtain ⟨v, rest1⟩ := r
            have h5 := (scan_length f2).1 _ _ _ _ hval
            have hi := ihI d rest1 (by omega) (by omega)
            simp only [hi]

/-- The bound handed to the scanner does not matter once it is at least the
length of the body. -/
theorem readValue_fuel (body : List Char) (f : Nat) (hf : body.length ≤ f) :
    scanValue f 0 body = readValue body :=
  ((scan_fuel f (body.length + 1)).1 0 body hf (Nat.le_succ _))


/-! ### The scanner never looks behind the value it reads -/

/-- The character white space stops at is not white space. -/
theorem skipSpace_head (cs : List Char) (c : Char) (r : List Char)
    (h : skipSpace cs = c :: r) : isSpace c = false := by
  induction cs with
  | nil => simp [skipSpace] at h
  | cons a cs ih =>
    rw [skipSpace] at h
    split at h
    · exact ih h
    · rename_i hs
      simp only [List.cons.injEq] at h
      rw [← h.1]
      simpa using hs

/-- The input is the white space dropped, then what is left; the same white
space is dropped in front of any other continuation. -/
theorem skipSpace_split (cs : List Char) (c : Char) (r : List Char)
    (h : skipSpace cs = c :: r) :
    ∃ ws, cs = ws ++ c :: r ∧ ∀ t, skipSpace (ws ++ c :: t) = c :: t := by
  induction cs with
  | nil => simp [skipSpace] at h
  | cons a cs ih =>
    rw [skipSpace] at h
    split at h
    · rename_i hs
      obtain ⟨ws, hcs, hws⟩ := ih h
      refine ⟨a :: ws, by rw [hcs]; rfl, ?_⟩
      intro t
      rw [List.cons_append, skipSpace, if_pos hs]
      exact hws t
    · rename_i hs
      simp only [List.cons.injEq] at h
      obtain ⟨rfl, rfl⟩ := h
      refine ⟨[], rfl, ?_⟩
      intro t
      rw [List.nil_append, skipSpace, if_neg hs]

/-- The run of digits and what follows it make up the input. -/
theorem spanDigits_eq (cs : List Char) : (spanDigits cs).1 ++ (spanDigits cs).2 = cs := by
  induction cs with
  | nil => simp [spanDigits]
  | cons c cs ih =>
    rw [spanDigits]
    split
    · simp only [List.cons_append, ih]
    · rfl

/-- The same run of digits is read in front of any remainder that starts like
the old one, or is empty. -/
theorem spanDigits_resume (cs t : List Char) (h : SameHead (spanDigits cs).2 t) :
    spanDigits ((spanDigits cs).1 ++ t) = ((spanDigits cs).1, t) := by
  induction cs with
  | nil =>
    simp only [spanDigits, List.nil_append] at h ⊢
    rcases h with rfl | ⟨c, r1, t1, hr, -⟩
    · simp [spanDigits]
    · simp at hr
  | cons c cs ih =>
    rw [spanDigits] at h ⊢
    split
    · rename_i hd
      simp only [hd, if_true] at h
      simp only [List.cons_append]
      rw [spanDigits, if_pos hd, ih h]
    · rename_i hd
      simp only [hd] at h
      simp only [List.nil_append]
      rcases h with rfl | ⟨c1, r1, t1, hr, rfl⟩
      · simp [spanDigits]
      · simp only [Bool.false_eq_true, if_false, List.cons.injEq] at hr
        obtain ⟨rfl, -⟩ := hr
        rw [spanDigits, if_neg hd]

/-- A scanned string is its raw text, the closing quote and the remainder; the
same string is read in front of any other remainder. -/
theorem scanStringFrom_split (cs : List Char) :
    ∀ (st : StringState) (raw rest : List Char), scanStringFrom st cs = some (raw, rest) →
      cs = raw ++ '"' :: rest ∧ ∀ t, scanStringFrom st (raw ++ '"' :: t) = some (raw, t) := by
  induction cs with
  | nil =>
    intro st raw rest h
    cases st <;> simp [scanStringFrom] at h
  | cons c cs ih =>
    intro st raw rest h
    have step : ∀ st2, Option.map (fun r => (c :: r.1, r.2)) (scanStringFrom st2 cs) =
        some (raw, rest) → ∃ raw1, raw = c :: raw1 ∧ cs = raw1 ++ '"' :: rest ∧
          ∀ t, scanStringFrom st2 (raw1 ++ '"' :: t) = some (raw1, t) := by
      intro st2 h2
      simp only [Option.map_eq_some', Prod.mk.injEq] at h2
      obtain ⟨⟨r1, r2⟩, hr, rfl, rfl⟩ := h2
      exact ⟨r1, rfl, ih st2 r1 r2 hr⟩
    cases st with
    | plain =>
      rw [scanStringFrom] at h
      split at h
      · rename_i hq
        simp only [Option.some.injEq, Prod.mk.injEq] at h
        obtain ⟨rfl, rfl⟩ := h
        subst hq
        refine ⟨rfl, fun t => ?_⟩
        rw [List.nil_append, scanStringFrom, if_pos rfl]
      · rename_i hq
        split at h
        · rename_i hb
          obtain ⟨raw1, rfl, hcs, hres⟩ := step _ h
          refine ⟨by rw [hcs]; rfl, fun t => ?_⟩
          rw [List.cons_append, scanStringFrom, if_neg hq, if_pos hb, hres t]
          rfl
        · rename_i hb
          split at h
          · simp at h
          · rename_i hctl
            obtain ⟨raw1, rfl, hcs, hres⟩ := step _ h
            refine ⟨by rw [hcs]; rfl, fun t => ?_⟩
            rw [List.cons_append, scanStringFrom, if_neg hq, if_neg hb, if_neg hctl, hres t]
            rfl
    | esc =>
      rw [scanStringFrom] at h
      split at h
      · rename_i hu
        obtain ⟨raw1, rfl, hcs, hres⟩ := step _ h
        refine ⟨by rw [hcs]; rfl, fun t => ?_⟩
        rw [List.cons_append, scanStringFrom, if_pos hu, hres t]
        rfl
      · rename_i hu
        split at h
        · rename_i he
          obtain ⟨raw1, rfl, hcs, hres⟩ := step _ h
          refine ⟨by rw [hcs]; rfl, fun t => ?_⟩
          rw [List.cons_append, scanStringFrom, if_neg hu, if_pos he, hres t]
          rfl
        · simp at h
    | hex togo =>
      rw [scanStringFrom] at h
      split at h
      · rename_i hx
        obtain ⟨raw1, rfl, hcs, hres⟩ := step _ h
        refine ⟨by rw [hcs]; rfl, fun t => ?_⟩
        rw [List.cons_append, scanStringFrom, if_pos hx, hres t]
        rfl
      · simp at h

/-- A literal that was read is read in front of any other remainder. -/
theorem dropLiteral_split (ls : List Char) : ∀ (cs rest : List Char),
    dropLiteral ls cs = some rest → cs = ls ++ rest ∧ ∀ t, dropLiteral ls (ls ++ t) = some t := by
  induction ls with
  | nil =>
    intro cs rest h
    simp only [dropLiteral, Option.some.injEq] at h
    exact ⟨by simp [h], fun t => by simp [dropLiteral]⟩
  | cons l ls ih =>
    intro cs rest h
    cases cs with
    | nil => simp [dropLiteral] at h
    | cons c cs =>
      rw [dropLiteral] at h
      split at h
      · rename_i hc
        obtain ⟨hcs, hres⟩ := ih cs rest h
        refine ⟨by rw [hc, hcs]; rfl, fun t => ?_⟩
        rw [List.cons_append, dropLiteral, if_pos rfl]
        exact hres t
      · simp at h

/-- Remainders that start alike still do behind a common text. -/
theorem sameHead_append (r1 rest t : List Char) (h : SameHead rest t) :
    SameHead (r1 ++ rest) (r1 ++ t) := by
  cases r1 with
  | nil => simpa using h
  | cons c r1 => exact Or.inr ⟨c, r1 ++ rest, r1 ++ t, rfl, rfl⟩

/-- Two remainders with the same first character start alike. -/
theorem sameHead_cons (c : Char) (r t : List Char) : SameHead (c :: r) (c :: t) :=
  Or.inr ⟨c, r, t, rfl, rfl⟩

/-- A run of digits that is not empty starts with the first character. -/
theorem spanDigits_fst_cons (s : Char) (cs : List Char)
    (h : (spanDigits (s :: cs)).1.isEmpty = false) :
    isDigit s = true ∧ (spanDigits (s :: cs)).1 = s :: (spanDigits cs).1 ∧
      (spanDigits (s :: cs)).2 = (spanDigits cs).2 := by
  rw [spanDigits] at h ⊢
  split
  · rename_i hd
    exact ⟨hd, rfl, rfl⟩
  · rename_i hd
    simp [hd] at h

/-- An exponent that was read is read in front of any remainder that starts
like the old one, or is empty. -/
theorem scanExp_split (cs lit rest : List Char) (h : scanExp cs = some (lit, rest)) :
    cs = lit ++ rest ∧ ∀ t, SameHead rest t → scanExp (lit ++ t) = some (lit, t) := by
  cases cs with
  | nil =>
    simp only [scanExp, Option.some.injEq, Prod.mk.injEq] at h
    obtain ⟨rfl, rfl⟩ := h
    refine ⟨rfl, ?_⟩
    rintro t (rfl | ⟨c, r1, t1, hr, -⟩)
    · rfl
    · simp at hr
  | cons e cs =>
    simp only [scanExp] at h
    split at h
    · rename_i he
      cases cs with
      | nil => simp at h
      | cons s cs1 =>
        simp only at h
        split at h
        · rename_i hs
          split at h
          · simp at h
          · rename_i hne
            simp only [Option.some.injEq, Prod.mk.injEq] at h
            obtain ⟨rfl, rfl⟩ := h
            refine ⟨by simp [spanDigits_eq], ?_⟩
            intro t ht
            simp only [List.cons_append, scanExp, if_pos he, if_pos hs,
              spanDigits_resume cs1 t ht, hne]
            simp
        · rename_i hs
          split at h
          · simp at h
          · rename_i hne
            simp only [Option.some.injEq, Prod.mk.injEq] at h
            obtain ⟨rfl, rfl⟩ := h
            refine ⟨by simp [spanDigits_eq], ?_⟩
            intro t ht
            have hres := spanDigits_resume (s :: cs1) t ht
            obtain ⟨-, hfst, -⟩ := spanDigits_fst_cons s cs1 (by simpa using hne)
            rw [hfst] at hres ⊢
            simp only [List.cons_append] at hres ⊢
            simp only [scanExp, if_pos he, if_neg hs, hres]
            simp
    · rename_i he
      simp only [Option.some.injEq, Prod.mk.injEq] at h
      obtain ⟨rfl, rfl⟩ := h
      refine ⟨rfl, ?_⟩
      rintro t (rfl | ⟨c, r1, t1, hr, rfl⟩)
      · rfl
      · simp only [List.cons.injEq] at hr
        obtain ⟨rfl, -⟩ := hr
        simp only [List.nil_append, scanExp, if_neg he]

/-- Without a decimal point there is no fraction to read. -/
theorem scanFrac_of_not_dot (x : List Char) (h : ∀ r, x ≠ '.' :: r) :
    scanFrac x = scanExp x := by
  cases x with
  | nil => rfl
  | cons c cs =>
    simp only [scanFrac]
    rw [if_neg]
    rintro rfl
    exact h cs rfl

/-- A fraction and exponent that were read are read in front of any remainder
that starts like the old one, or is empty. -/
theorem scanFrac_split (cs lit rest : List Char) (h : scanFrac cs = some (lit, rest)) :
    cs = lit ++ rest ∧ ∀ t, SameHead rest t → scanFrac (lit ++ t) = some (lit, t) := by
  cases cs with
  | nil =>
    simp only [scanFrac, Option.some.injEq, Prod.mk.injEq] at h
    obtain ⟨rfl, rfl⟩ := h
    refine ⟨rfl, ?_⟩
    rintro t (rfl | ⟨c, r1, t1, hr, -⟩)
    · rfl
    · simp at hr
  | cons c cs =>
    simp only [scanFrac] at h
    split at h
    · rename_i hc
      split at h
      · simp at h
      · rename_i hne
        simp only [Option.map_eq_some', Prod.mk.injEq] at h
        obtain ⟨⟨r1, r2⟩, hr, rfl, rfl⟩ := h
        obtain ⟨hcs, hres⟩ := scanExp_split _ _ _ hr
        refine ⟨?_, ?_⟩
        · have := spanDigits_eq cs
          rw [hcs] at this
          simp only [List.cons_append, List.append_assoc]
          rw [this]
        · intro t ht
          have hsame : SameHead (spanDigits cs).2 (r1 ++ t) := by
            rw [hcs]
            exact sameHead_append r1 r2 t ht
          simp only [List.cons_append, List.append_assoc, scanFrac, if_pos hc,
            spanDigits_resume cs (r1 ++ t) hsame, hne, hres t ht]
          simp
    · rename_i hc
      obtain ⟨hcs, hres⟩ := scanExp_split _ _ _ h
      refine ⟨hcs, ?_⟩
      intro t ht
      rw [scanFrac_of_not_dot, hres t ht]
      intro r hx
      cases lit with
      | nil =>
        simp only [List.nil_append] at hcs hx
        rcases ht with rfl | ⟨c1, r1, t1, hr1, rfl⟩
        · simp at hx
        · rw [← hcs] at hr1
          simp only [List.cons.injEq] at hr1 hx
          exact hc (hr1.1.trans hx.1)
      | cons l lit =>
        simp only [List.cons_append, List.cons.injEq] at hcs hx
        exact hc (hcs.1.trans hx.1)

/-- A number without sign that was read is read in front of any remainder that
starts like the old one, or is empty. -/
theorem scanUnsigned_split (cs lit rest : List Char)
    (h : scanUnsigned cs = some (lit, rest)) :
    cs = lit ++ rest ∧ lit ≠ [] ∧
      ∀ t, SameHead rest t → scanUnsigned (lit ++ t) = some (lit, t) := by
  cases cs with
  | nil => simp [scanUnsigned] at h
  | cons c cs =>
    simp only [scanUnsigned] at h
    split at h
    · rename_i hc
      simp only [Option.map_eq_some', Prod.mk.injEq] at h
      obtain ⟨⟨r1, r2⟩, hr, rfl, rfl⟩ := h
      obtain ⟨hcs, hres⟩ := scanFrac_split _ _ _ hr
      refine ⟨by rw [hcs]; rfl, by simp, ?_⟩
      intro t ht
      simp only [List.cons_append, scanUnsigned, if_pos hc, hres t ht]
      rfl
    · rename_i hc
      split at h
      · rename_i hd
        simp only [Option.map_eq_some', Prod.mk.injEq] at h
        obtain ⟨⟨r1, r2⟩, hr, rfl, rfl⟩ := h
        obtain ⟨hcs, hres⟩ := scanFrac_split _ _ _ hr
        refine ⟨?_, by simp, ?_⟩
        · have := spanDigits_eq cs
          rw [hcs] at this
          simp only [List.cons_append, List.append_assoc]
          rw [this]
        · intro t ht
          have hsame : SameHead (spanDigits cs).2 (r1 ++ t) := by
            rw [hcs]
            exact sameHead_append r1 r2 t ht
          simp only [List.cons_append, List.append_assoc, scanUnsigned, if_neg hc, if_pos hd,
            spanDigits_resume cs (r1 ++ t) hsame, hres t ht]
          simp
      · simp at h

/-- A number that was read is read in front of any remainder that starts like
the old one, or is empty. -/
theorem scanNumber_split (cs lit rest : List Char) (h : scanNumber cs = some (lit, rest)) :
    cs = lit ++ rest ∧ lit ≠ [] ∧
      ∀ t, SameHead rest t → scanNumber (lit ++ t) = some (lit, t) := by
  cases cs with
  | nil => simp [scanNumber] at h
  | cons c cs =>
    simp only [scanNumber] at h
    split at h
    · rename_i hc
      simp only [Option.map_eq_some', Prod.mk.injEq] at h
      obtain ⟨⟨r1, r2⟩, hr, rfl, rfl⟩ := h
      obtain ⟨hcs, -, hres⟩ := scanUnsigned_split _ _ _ hr
      refine ⟨by rw [hcs]; rfl, by simp, ?_⟩
      intro t ht
      simp only [List.cons_append, scanNumber, if_pos hc, hres t ht]
      rfl
    · rename_i hc
      obtain ⟨hcs, hne, hres⟩ := scanUnsigned_split _ _ _ h
      refine ⟨hcs, hne, ?_⟩
      intro t ht
      cases lit with
      | nil => exact absurd rfl hne
      | cons l lit =>
        simp only [List.cons_append, List.cons.injEq] at hcs
        obtain ⟨rfl, -⟩ := hcs
        have := hres t ht
        simp only [List.cons_append] at this ⊢
        simp only [scanNumber, if_neg hc, this]

/-- A scan that shortened the input consumed something. -/
theorem ne_nil_of_length_lt {pre rest cs : List Char} (h : cs = pre ++ rest)
    (hl : rest.length < cs.length) : pre ≠ [] := by
  rintro rfl
  simp only [List.nil_append] at h
  rw [h] at hl
  exact Nat.lt_irrefl _ hl

/-- The scanner reads a value from the front of the input and never looks
behind it: the input is the text consumed and the remainder, and the same
value is read from that text in front of any other remainder (for a number:
one that starts like the old remainder, or is empty), with any larger fuel. -/
theorem scan_split (f : Nat) :
    (∀ d cs v rest, scanValue f d cs = some (v, rest) →
      ∃ pre, cs = pre ++ rest ∧ ∀ t, ((∃ lit, v = .num lit) → SameHead rest t) →
        ∀ f', f ≤ f' → scanValue f' d (pre ++ t) = some (v, t)) ∧
    (∀ d cs ms rest, scanMembers f d cs = some (ms, rest) →
      ∃ pre, cs = pre ++ rest ∧
        ∀ t f', f ≤ f' → scanMembers f' d (pre ++ t) = some (ms, t)) ∧
    (∀ d cs its rest, scanItems f d cs = some (its, rest) →
      ∃ pre, cs = pre ++ rest ∧
        ∀ t f', f ≤ f' → scanItems f' d (pre ++ t) = some (its, t)) := by
  induction f with
  | zero =>
    refine ⟨?_, ?_, ?_⟩ <;> intro d cs v rest h
    · simp [scanValue] at h
    · simp [scanMembers] at h
    · simp [scanItems] at h
  | succ f ih =>
    obtain ⟨ihV, ihM, ihI⟩ := ih
    refine ⟨?_, ?_, ?_⟩
    · intro d cs v rest h
      rw [scanValue] at h
      cases hsk : skipSpace cs with
      | nil => simp [hsk] at h
      | cons c rest0 =>
        obtain ⟨ws, hcs, hws⟩ := skipSpace_split cs c rest0 hsk
        simp only [hsk] at h
        split at h
        · rename_i hc
          split at h
          · rename_i hdepth
            cases hsk1 : skipSpace rest0 with
            | nil => simp [hsk1] at h
            | cons c1 rest1 =>
              obtain ⟨ws1, hrest0, hws1⟩ := skipSpace_split rest0 c1 rest1 hsk1
              simp only [hsk1] at h
              split at h
              · rename_i hc1
                simp only [Option.some.injEq, Prod.mk.injEq] at h
                obtain ⟨rfl, rfl⟩ := h
                refine ⟨ws ++ c :: (ws1 ++ [c1]), by rw [hcs, hrest0]; simp, ?_⟩
                intro t _ f' hf'
                obtain ⟨m, rfl⟩ : ∃ m, f' = m + 1 := ⟨f' - 1, by omega⟩
                have e : (ws ++ c :: (ws1 ++ [c1])) ++ t = ws ++ c :: (ws1 ++ c1 :: t) := by
                  simp
                rw [e, scanValue, hws]
                simp only [if_pos hc, if_pos hdepth, hws1, if_pos hc1]
              · rename_i hc1
                simp only [Option.map_eq_some', Prod.mk.injEq] at h
                obtain ⟨⟨ms, r2⟩, hr, rfl, rfl⟩ := h
                obtain ⟨pm, hpm, hresm⟩ := ihM _ _ _ _ hr
                have hne := ne_nil_of_length_lt hpm ((scan_length f).2.1 _ _ _ _ hr)
                cases pm with
                | nil => exact absurd rfl hne
                | cons p0 pm =>
                  simp only [List.cons_append, List.cons.injEq] at hpm
                  obtain ⟨rfl, hrest1⟩ := hpm
                  refine ⟨ws ++ c :: (ws1 ++ c1 :: pm), by rw [hcs, hrest0, hrest1]; simp, ?_⟩
                  intro t _ f' hf'
                  obtain ⟨m, rfl⟩ : ∃ m, f' = m + 1 := ⟨f' - 1, by omega⟩
                  have e : (ws ++ c :: (ws1 ++ c1 :: pm)) ++ t =
                      ws ++ c :: (ws1 ++ c1 :: (pm ++ t)) := by simp
                  have hm := hresm t m (by omega)
                  simp only [List.cons_append] at hm
                  rw [e, scanValue, hws]
                  simp only [if_pos hc, if_pos hdepth, hws1, if_neg hc1, hm]
                  rfl
          · simp at h
        · rename_i hc
          split at h
          · rename_i hb
            split at h
            · rename_i hdepth
              cases hsk1 : skipSpace rest0 with
              | nil => simp [hsk1] at h
              | cons c1 rest1 =>
                obtain ⟨ws1, hrest0, hws1⟩ := skipSpace_split rest0 c1 rest1 hsk1
                simp only [hsk1] at h
                split at h
                · rename_i hc1
                  simp only [Option.some.injEq, Prod.mk.injEq] at h
                  obtain ⟨rfl, rfl⟩ := h
                  refine ⟨ws ++ c :: (ws1 ++ [c1]), by rw [hcs, hrest0]; simp, ?_⟩
                  intro t _ f' hf'
                  obtain ⟨m, rfl⟩ : ∃ m, f' = m + 1 := ⟨f' - 1, by omega⟩
                  have e : (ws ++ c :: (ws1 ++ [c1])) ++ t = ws ++ c :: (ws1 ++ c1 :: t) := by
                    simp
                  rw [e, scanValue, hws]
                  simp only [if_neg hc, if_pos hb, if_pos hdepth, hws1, if_pos hc1]
                · rename_i hc1
                  cases hv1 : scanValue f (d + 1) (c1 :: rest1) with
                  | none => simp [hv1] at h
                  | some r1 =>
                    obtain ⟨v1, rest2⟩ := r1
                    simp only [hv1, Option.map_eq_some', Prod.mk.injEq] at h
                    obtain ⟨⟨its, r2⟩, hr, rfl, rfl⟩ := h
                    obtain ⟨pv, hpv, hresv⟩ := ihV _ _ _ _ hv1
                    obtain ⟨pi, hpi, hresi⟩ := ihI _ _ _ _ hr
                    have hnev := ne_nil_of_length_lt hpv ((scan_length f).1 _ _ _ _ hv1)
                    have hnei := ne_nil_of_length_lt hpi ((scan_length f).2.2 _ _ _ _ hr)
                    cases pv with
                    | nil => exact absurd rfl hnev
                    | cons p0 pv =>
                      simp only [List.cons_append, List.cons.injEq] at hpv
                      obtain ⟨rfl, hrest1⟩ := hpv
                      refine ⟨ws ++ c :: (ws1 ++ c1 :: (pv ++ pi)),
                        by rw [hcs, hrest0, hrest1, hpi]; simp, ?_⟩
                      intro t _ f' hf'
                      obtain ⟨m, rfl⟩ : ∃ m, f' = m + 1 := ⟨f' - 1, by omega⟩
                      have e : (ws ++ c :: (ws1 ++ c1 :: (pv ++ pi))) ++ t =
                          ws ++ c :: (ws1 ++ c1 :: (pv ++ (pi ++ t))) := by simp
                      have hsame : SameHead rest2 (pi ++ t) := by
                        cases pi with
                        | nil => exact absurd rfl hnei
                        | cons q pi =>
                          rw [hpi]
                          exact sameHead_cons q _ _
                      have hv := hresv (pi ++ t) (fun _ => hsame) m (by omega)
                      have hi := hresi t m (by omega)
                      simp only [List.cons_append] at hv
                      rw [e, scanValue, hws]
                      simp only [if_neg hc, if_pos hb, if_pos hdepth, hws1, if_neg hc1, hv, hi]
                      rfl
            · simp at h
          · rename_i hb
            have scalar : ∀ (pre0 : List Char),
                rest0 = pre0 ++ rest →
                (∀ t (m : Nat), ((∃ lit, v = .num lit) → SameHead rest t) →
                  scanValue (m + 1) d (ws ++ c :: (pre0 ++ t)) = some (v, t)) →
                ∃ pre, cs = pre ++ rest ∧ ∀ t, ((∃ lit, v = .num lit) → SameHead rest t) →
                  ∀ f', f + 1 ≤ f' → scanValue f' d (pre ++ t) = some (v, t) := by
              intro pre0 hpre0 hgoal
              refine ⟨ws ++ c :: pre0, by rw [hcs, hpre0]; simp, ?_⟩
              intro t ht f' hf'
              obtain ⟨m, rfl⟩ : ∃ m, f' = m + 1 := ⟨f' - 1, by omega⟩
              have e : (ws ++ c :: pre0) ++ t = ws ++ c :: (pre0 ++ t) := by simp
              rw [e]
              exact hgoal t m ht
            split at h
            · rename_i hq
              simp only [Option.map_eq_some', Prod.mk.injEq] at h
              obtain ⟨⟨raw, r2⟩, hr, rfl, rfl⟩ := h
              obtain ⟨hraw, hres⟩ := scanStringFrom_split _ _ _ _ hr
              refine scalar (raw ++ ['"']) (by rw [hraw]; simp) ?_
              intro t m _
              have e : raw ++ ['"'] ++ t = raw ++ '"' :: t := by simp
              rw [scanValue, hws]
              simp only [if_neg hc, if_neg hb, if_pos hq, e, scanString, hres t]
              rfl
            · rename_i hq
              split at h
              · rename_i ht1
                simp only [Option.map_eq_some', Prod.mk.injEq] at h
                obtain ⟨r2, hr, rfl, rfl⟩ := h
                obtain ⟨hlit, hres⟩ := dropLiteral_split _ _ _ hr
                refine scalar _ hlit ?_
                intro t m _
                rw [scanValue, hws]
                simp only [if_neg hc, if_neg hb, if_neg hq, if_pos ht1, hres t]
                rfl
              · rename_i ht1
                split at h
                · rename_i hf1
                  simp only [Option.map_eq_some', Prod.mk.injEq] at h
                  obtain ⟨r2, hr, rfl, rfl⟩ := h
                  obtain ⟨hlit, hres⟩ := dropLiteral_split _ _ _ hr
                  refine scalar _ hlit ?_
                  intro t m _
                  rw [scanValue, hws]
                  simp only [if_neg hc, if_neg hb, if_neg hq, if_neg ht1, if_pos hf1, hres t]
                  rfl
                · rename_i hf1
                  split at h
                  · rename_i hn1
                    simp only [Option.map_eq_some', Prod.mk.injEq] at h
                    obtain ⟨r2, hr, rfl, rfl⟩ := h
                    obtain ⟨hlit, hres⟩ := dropLiteral_split _ _ _ hr
                    refine scalar _ hlit ?_
                    intro t m _
                    rw [scanValue, hws]
                    simp only [if_neg hc, if_neg hb, if_neg hq, if_neg ht1, if_neg hf1,
                      if_pos hn1, hres t]
                    rfl
                  · rename_i hn1
                    simp only [Option.map_eq_some', Prod.mk.injEq] at h
                    obtain ⟨⟨lit, r2⟩, hr, rfl, rfl⟩ := h
                    obtain ⟨hlit, hne, hres⟩ := scanNumber_split _ _ _ hr
                    cases lit with
                    | nil => exact absurd rfl hne
                    | cons l lit =>
                      simp only [List.cons_append, List.cons.injEq] at hlit
                      obtain ⟨rfl, hrest0⟩ := hlit
                      refine scalar lit hrest0 ?_
                      intro t m ht
                      have hnum := hres t (ht ⟨_, rfl⟩)
                      simp only [List.cons_append] at hnum
                      rw [scanValue, hws]
                      simp only [if_neg hc, if_neg hb, if_neg hq, if_neg ht1, if_neg hf1,
                        if_neg hn1, hnum]
                      rfl
    · intro d cs ms rest h
      rw [scanMembers] at h
      cases hsk : skipSpace cs with
      | nil => simp [hsk] at h
      | cons c rest0 =>
        obtain ⟨ws, hcs, hws⟩ := skipSpace_split cs c rest0 hsk
        simp only [hsk] at h
        split at h
        · rename_i hc
          cases hkey : scanString rest0 with
          | none => simp [hkey] at h
          | some kr =>
            obtain ⟨key, rest1⟩ := kr
            obtain ⟨hrest0, hreskey⟩ := scanStringFrom_split _ _ _ _ hkey
            simp only [hkey] at h
            cases hsk2 : skipSpace rest1 with
            | nil => simp [hsk2] at h
            | cons c2 rest2 =>
              obtain ⟨ws2, hrest1, hws2⟩ := skipSpace_split rest1 c2 rest2 hsk2
              simp only [hsk2] at h
              split at h
              · rename_i hc2
                cases hval : scanValue f d rest2 with
                | none => simp [hval] at h
                | some r =>
                  obtain ⟨v, rest3⟩ := r
                  obtain ⟨pv, hrest2, hresv⟩ := ihV _ _ _ _ hval
                  simp only [hval] at h
                  cases hsk4 : skipSpace rest3 with
                  | nil => simp [hsk4] at h
                  | cons c4 rest4 =>
                    obtain ⟨ws4, hrest3, hws4⟩ := skipSpace_split rest3 c4 rest4 hsk4
                    simp only [hsk4] at h
                    split at h
                    · rename_i hc4
                      simp only [Option.map_eq_some', Prod.mk.injEq] at h
                      obtain ⟨⟨ms1, r2⟩, hr, rfl, rfl⟩ := h
                      obtain ⟨pm, hrest4, hresm⟩ := ihM _ _ _ _ hr
                      refine ⟨ws ++ c :: (key ++ '"' :: (ws2 ++ c2 :: (pv ++ (ws4 ++ c4 :: pm)))),
                        by rw [hcs, hrest0, hrest1, hrest2, hrest3, hrest4]; simp, ?_⟩
                      intro t f' hf'
                      obtain ⟨m, rfl⟩ : ∃ m, f' = m + 1 := ⟨f' - 1, by omega⟩
                      have e : (ws ++ c :: (key ++ '"' :: (ws2 ++ c2 :: (pv ++ (ws4 ++ c4 :: pm))))) ++ t
                          = ws ++ c :: (key ++ '"' :: (ws2 ++ c2 :: (pv ++ (ws4 ++ c4 :: (pm ++ t))))) := by
                        simp
                      have hsame : SameHead rest3 (ws4 ++ c4 :: (pm ++ t)) := by
                        rw [hrest3]
                        exact sameHead_append ws4 _ _ (sameHead_cons c4 _ _)
                      have hv := hresv _ (fun _ => hsame) m (by omega)
                      have hm := hresm t m (by omega)
                      rw [e, scanMembers, hws]
                      simp only [if_pos hc, scanString, hreskey, hws2, if_pos hc2, hv, hws4,
                        if_pos hc4, hm]
                      rfl
                    · rename_i hc4
                      split at h
                      · rename_i hc5
                        simp only [Option.some.injEq, Prod.mk.injEq] at h
                        obtain ⟨rfl, rfl⟩ := h
                        refine ⟨ws ++ c :: (key ++ '"' :: (ws2 ++ c2 :: (pv ++ (ws4 ++ [c4])))),
                          by rw [hcs, hrest0, hrest1, hrest2, hrest3]; simp, ?_⟩
                        intro t f' hf'
                        obtain ⟨m, rfl⟩ : ∃ m, f' = m + 1 := ⟨f' - 1, by omega⟩
                        have e : (ws ++ c :: (key ++ '"' :: (ws2 ++ c2 :: (pv ++ (ws4 ++ [c4]))))) ++ t
                            = ws ++ c :: (key ++ '"' :: (ws2 ++ c2 :: (pv ++ (ws4 ++ c4 :: t)))) := by
                          simp
                        have hsame : SameHead rest3 (ws4 ++ c4 :: t) := by
                          rw [hrest3]
                          exact sameHead_append ws4 _ _ (sameHead_cons c4 _ _)
                        have hv := hresv _ (fun _ => hsame) m (by omega)
                        rw [e, scanMembers, hws]
                        simp only [if_pos hc, scanString, hreskey, hws2, if_pos hc2, hv, hws4,
                          if_neg hc4, if_pos hc5]
                      · simp at h
              · simp at h
        · simp at h
    · intro d cs its rest h
      rw [scanItems] at h
      cases hsk : skipSpace cs with
      | nil => simp [hsk] at h
      | cons c rest0 =>
        obtain ⟨ws, hcs, hws⟩ := skipSpace_split cs c rest0 hsk
        simp only [hsk] at h
        split at h
        · rename_i hc
          simp only [Option.some.injEq, Prod.mk.injEq] at h
          obtain ⟨rfl, rfl⟩ := h
          refine ⟨ws ++ [c], by rw [hcs]; simp, ?_⟩
          intro t f' hf'
          obtain ⟨m, rfl⟩ : ∃ m, f' = m + 1 := ⟨f' - 1, by omega⟩
          have e : (ws ++ [c]) ++ t = ws ++ c :: t := by simp
          rw [e, scanItems, hws]
          simp only [if_pos hc]
        · rename_i hc
          split at h
          · rename_i hcomma
            cases hval : scanValue f d rest0 with
            | none => simp [hval] at h
            | some r =>
              obtain ⟨v, rest1⟩ := r
              obtain ⟨pv, hrest0, hresv⟩ := ihV _ _ _ _ hval
              simp only [hval, Option.map_eq_some', Prod.mk.injEq] at h
              obtain ⟨⟨its1, r2⟩, hr, rfl, rfl⟩ := h
              obtain ⟨pi, hrest1, hresi⟩ := ihI _ _ _ _ hr
              have hnei := ne_nil_of_length_lt hrest1 ((scan_length f).2.2 _ _ _ _ hr)
              refine ⟨ws ++ c :: (pv ++ pi), by rw [hcs, hrest0, hrest1]; simp, ?_⟩
              intro t f' hf'
              obtain ⟨m, rfl⟩ : ∃ m, f' = m + 1 := ⟨f' - 1, by omega⟩
              have e : (ws ++ c :: (pv ++ pi)) ++ t = ws ++ c :: (pv ++ (pi ++ t)) := by simp
              have hsame : SameHead rest1 (pi ++ t) := by
                cases pi with
                | nil => exact absurd rfl hnei
                | cons q pi =>
                  rw [hrest1]
                  exact sameHead_cons q _ _
              have hv := hresv _ (fun _ => hsame) m (by omega)
              have hi := hresi t m (by omega)
              rw [e, scanItems, hws]
              simp only [if_neg hc, if_pos hcomma, hv, hi]
              rfl
          · simp at h

/-- The decoder's `readValue` consumes a text in front of the remainder, and
reads the same value from that text whatever follows it. -/
theorem readValue_split (body : List Char) (v : JSON) (rest : List Char)
    (h : readValue body = some (v, rest)) :
    ∃ pre, body = pre ++ rest ∧
      ∀ t, ((∃ lit, v = .num lit) → SameHead rest t) → readValue (pre ++ t) = some (v, t) := by
  obtain ⟨pre, hpre, hres⟩ := (scan_split (body.length + 1)).1 0 body v rest h
  refine ⟨pre, hpre, ?_⟩
  intro t ht
  have h1 := hres t ht (body.length + 1 + ((pre ++ t).length + 1)) (Nat.le_add_right _ _)
  have h2 := (scan_fuel (body.length + 1 + ((pre ++ t).length + 1)) ((pre ++ t).length + 1)).1
    0 (pre ++ t) (by omega) (by omega)
  unfold readValue
  rw [← h2]
  exact h1

/-- Bytes appended to a body whose first value is not a bare number do not
change what `readValue` reads; they are added to the remainder. -/
theorem readValue_append (body : List Char) (v : JSON) (rest t : List Char)
    (h : readValue body = some (v, rest)) (hv : ∀ lit, v ≠ .num lit) :
    readValue (body ++ t) = some (v, rest ++ t) := by
  obtain ⟨pre, hpre, hres⟩ := readValue_split body v rest h
  have := hres (rest ++ t) (fun ⟨lit, hl⟩ => absurd hl (hv lit))
  rw [hpre, List.append_assoc]
  exact this

/-- A body is the text of its first value and the remainder, and that text
alone is read as the same value, with nothing left. -/
theorem readValue_truncate (body : List Char) (v : JSON) (rest : List Char)
    (h : readValue body = some (v, rest)) :
    ∃ pre, body = pre ++ rest ∧ readValue pre = some (v, []) := by
  obtain ⟨pre, hpre, hres⟩ := readValue_split body v rest h
  refine ⟨pre, hpre, ?_⟩
  have := hres [] (fun _ => Or.inl rfl)
  simpa using this

/-- A bare number does not decode into the payload. -/
theorem unmarshal_ok_not_num (L : Lib) (v : JSON) (p : WebhookPayload)
    (h : unmarshal L v = .ok p) : ∀ lit, v ≠ .num lit := by
  rintro lit rfl
  simp [unmarshal] at h

/-- Bytes appended to a body that decodes do not change the payload it decodes
to. -/
theorem Decode_append (L : Lib) (body t : List Char) (p : WebhookPayload)
    (h : Decode L body = .ok p) : Decode L (body ++ t) = .ok p := by
  unfold Decode at h ⊢
  cases hr : readValue body with
  | none => simp [hr] at h
  | some r =>
    obtain ⟨v, rest⟩ := r
    simp only [hr] at h
    rw [readValue_append body v rest t hr (unmarshal_ok_not_num L v p h)]
    exact h

/-- A body that decodes but is not well-formed JSON is a well-formed JSON text,
which decodes to the same payload, followed by trailing bytes. -/
theorem Decode_truncate (L : Lib) (body : List Char) (p : WebhookPayload)
    (hbad : isWellFormedJSON body = false) (h : Decode L body = .ok p) :
    ∃ pre rest, body = pre ++ rest ∧ skipSpace rest ≠ [] ∧
      isWellFormedJSON pre = true ∧ Decode L pre = .ok p := by
  unfold Decode at h
  cases hr : readValue body with
  | none => simp [hr] at h
  | some r =>
    obtain ⟨v, rest⟩ := r
    simp only [hr] at h
    obtain ⟨pre, hpre, hpre2⟩ := readValue_truncate body v rest hr
    refine ⟨pre, rest, hpre, ?_, ?_, ?_⟩
    · intro hnil
      simp [isWellFormedJSON, hr, hnil] at hbad
    · simp [isWellFormedJSON, hpre2, skipSpace]
    · simp only [Decode, hpre2]
      exact h


/-! ### The scanner accepts exactly the JSON texts of RFC 8259 -/

/-- What is dropped in front of the first character is white space. -/
theorem skipSpace_ws (cs : List Char) (c : Char) (r : List Char)
    (h : skipSpace cs = c :: r) : ∃ ws, IsWS ws ∧ cs = ws ++ c :: r := by
  induction cs with
  | nil => simp [skipSpace] at h
  | cons a cs ih =>
    rw [skipSpace] at h
    split at h
    · rename_i hs
      obtain ⟨ws, hws, hcs⟩ := ih h
      refine ⟨a :: ws, ?_, by rw [hcs]; rfl⟩
      intro x hx
      rcases List.mem_cons.1 hx with rfl | hx
      · exact hs
      · exact hws x hx
    · simp only [List.cons.injEq] at h
      obtain ⟨rfl, rfl⟩ := h
      exact ⟨[], by intro x hx; simp at hx, rfl⟩

/-- An input of which nothing is left after dropping white space is white
space. -/
theorem skipSpace_nil_ws (cs : List Char) (h : skipSpace cs = []) : IsWS cs := by
  induction cs with
  | nil => intro x hx; simp at hx
  | cons a cs ih =>
    rw [skipSpace] at h
    split at h
    · rename_i hs
      intro x hx
      rcases List.mem_cons.1 hx with rfl | hx
      · exact hs
      · exact ih h x hx
    · simp at h

/-- White space after white space is white space. -/
theorem isWS_append {a b : List Char} (ha : IsWS a) (hb : IsWS b) : IsWS (a ++ b) := by
  intro x hx
  rcases List.mem_append.1 hx with h | h
  · exact ha x h
  · exact hb x h

/-- The empty text is white space. -/
theorem isWS_nil : IsWS [] := by
  intro x hx
  simp at hx

/-- A run of digits consists of digits. -/
theorem spanDigits_digits (cs : List Char) : IsDigits (spanDigits cs).1 := by
  induction cs with
  | nil => intro x hx; simp [spanDigits] at hx
  | cons c cs ih =>
    rw [spanDigits]
    split
    · rename_i hd
      intro x hx
      rcases List.mem_cons.1 hx with rfl | hx
      · exact hd
      · exact ih x hx
    · intro x hx
      simp at hx

/-- What the string scanner accepts, from each of its states, completes a
string of the grammar. -/
theorem scanStringFrom_sound (cs : List Char) :
    ∀ (st : StringState) (raw rest : List Char), scanStringFrom st cs = some (raw, rest) →
      match st with
      | .plain => JChars raw
      | .esc => JChars ('\\' :: raw)
      | .hex togo => 1 ≤ togo → ∀ done : List Char, done.length + togo = 4 →
          (∀ c ∈ done, isHex c = true) → JChars ('\\' :: 'u' :: (done ++ raw)) := by
  induction cs with
  | nil =>
    intro st raw rest h
    cases st <;> simp [scanStringFrom] at h
  | cons c cs ih =>
    intro st raw rest h
    have step : ∀ st2, Option.map (fun r => (c :: r.1, r.2)) (scanStringFrom st2 cs) =
        some (raw, rest) → ∃ raw1, raw = c :: raw1 ∧ scanStringFrom st2 cs = some (raw1, rest) := by
      intro st2 h2
      simp only [Option.map_eq_some', Prod.mk.injEq] at h2
      obtain ⟨⟨r1, r2⟩, hr, rfl, rfl⟩ := h2
      exact ⟨r1, rfl, hr⟩
    cases st with
    | plain =>
      rw [scanStringFrom] at h
      simp only
      split at h
      · simp only [Option.some.injEq, Prod.mk.injEq] at h
        rw [← h.1]
        exact JChars.nil
      · rename_i hq
        split at h
        · rename_i hb
          obtain ⟨raw1, rfl, hr⟩ := step _ h
          have := ih .esc raw1 rest hr
          simp only at this
          rw [hb]
          exact this
        · rename_i hb
          split at h
          · simp at h
          · rename_i hctl
            obtain ⟨raw1, rfl, hr⟩ := step _ h
            have := ih .plain raw1 rest hr
            simp only at this
            exact JChars.unescaped c raw1 hq hb (by omega) this
    | esc =>
      rw [scanStringFrom] at h
      simp only
      split at h
      · rename_i hu
        obtain ⟨raw1, rfl, hr⟩ := step _ h
        have := ih (.hex 4) raw1 rest hr
        simp only at this
        have := this (by omega) [] (by simp) (by intro x hx; simp at hx)
        rw [hu]
        simpa using this
      · split at h
        · rename_i he
          obtain ⟨raw1, rfl, hr⟩ := step _ h
          have := ih .plain raw1 rest hr
          simp only at this
          exact JChars.escape c raw1 he this
        · simp at h
    | hex togo =>
      rw [scanStringFrom] at h
      simp only
      intro h1 done hlen hdone
      split at h
      · rename_i hx
        obtain ⟨raw1, rfl, hr⟩ := step _ h
        by_cases hlast : togo ≤ 1
        · rw [if_pos hlast] at hr
          have := ih .plain raw1 rest hr
          simp only at this
          have h3 : done.length = 3 := by omega
          match done, h3, hdone with
          | [a, b, c3], _, hdone =>
            exact JChars.unicode a b c3 c raw1 (hdone a (by simp)) (hdone b (by simp))
              (hdone c3 (by simp)) hx this
        · rw [if_neg hlast] at hr
          have := ih (.hex (togo - 1)) raw1 rest hr
          simp only at this
          have := this (by omega) (done ++ [c]) (by simp; omega)
            (by
              intro x hx2
              rcases List.mem_append.1 hx2 with h5 | h5
              · exact hdone x h5
              · simp only [List.mem_singleton] at h5
                rw [h5]
                exact hx)
          simpa using this
      · simp at h

/-- The raw text of a scanned string is a string of the grammar. -/
theorem scanString_sound (cs raw rest : List Char) (h : scanString cs = some (raw, rest)) :
    JChars raw :=
  scanStringFrom_sound cs .plain raw rest h

/-- A list that is not empty is not the empty list. -/
theorem ne_nil_of_isEmpty_false {l : List Char} (h : ¬ l.isEmpty = true) : l ≠ [] := by
  rintro rfl
  exact h rfl

/-- A scanned exponent is an exponent of the grammar. -/
theorem scanExp_sound (cs lit rest : List Char) (h : scanExp cs = some (lit, rest)) :
    JExp lit := by
  cases cs with
  | nil =>
    simp only [scanExp, Option.some.injEq, Prod.mk.injEq] at h
    exact Or.inl h.1.symm
  | cons e cs =>
    simp only [scanExp] at h
    split at h
    · rename_i he
      cases cs with
      | nil => simp at h
      | cons s cs1 =>
        simp only at h
        split at h
        · rename_i hs
          split at h
          · simp at h
          · rename_i hne
            simp only [Option.some.injEq, Prod.mk.injEq] at h
            refine Or.inr ⟨e, [s], (spanDigits cs1).1, he, ?_, ne_nil_of_isEmpty_false hne,
              spanDigits_digits cs1, h.1.symm⟩
            rcases hs with rfl | rfl
            · exact Or.inr (Or.inl rfl)
            · exact Or.inr (Or.inr rfl)
        · split at h
          · simp at h
          · rename_i hne
            simp only [Option.some.injEq, Prod.mk.injEq] at h
            exact Or.inr ⟨e, [], (spanDigits (s :: cs1)).1, he, Or.inl rfl,
              ne_nil_of_isEmpty_false hne, spanDigits_digits _, h.1.symm⟩
    · simp only [Option.some.injEq, Prod.mk.injEq] at h
      exact Or.inl h.1.symm

/-- A scanned fraction and exponent are those of the grammar. -/
theorem scanFrac_sound (cs lit rest : List Char) (h : scanFrac cs = some (lit, rest)) :
    ∃ frac exp, lit = frac ++ exp ∧ JFrac frac ∧ JExp exp := by
  cases cs with
  | nil =>
    simp only [scanFrac, Option.some.injEq, Prod.mk.injEq] at h
    exact ⟨[], [], h.1.symm, Or.inl rfl, Or.inl rfl⟩
  | cons c cs =>
    simp only [scanFrac] at h
    split at h
    · rename_i hc
      split at h
      · simp at h
      · rename_i hne
        simp only [Option.map_eq_some', Prod.mk.injEq] at h
        obtain ⟨⟨r1, r2⟩, hr, rfl, rfl⟩ := h
        refine ⟨c :: (spanDigits cs).1, r1, rfl, ?_, scanExp_sound _ _ _ hr⟩
        exact Or.inr ⟨(spanDigits cs).1, ne_nil_of_isEmpty_false hne, spanDigits_digits cs,
          by rw [hc]⟩
    · exact ⟨[], lit, rfl, Or.inl rfl, scanExp_sound _ _ _ h⟩

/-- A scanned number without sign is integer part, fraction and exponent of
the grammar. -/
theorem scanUnsigned_sound (cs lit rest : List Char)
    (h : scanUnsigned cs = some (lit, rest)) :
    ∃ int frac exp, lit = int ++ (frac ++ exp) ∧ JInt int ∧ JFrac frac ∧ JExp exp := by
  cases cs with
  | nil => simp [scanUnsigned] at h
  | cons c cs =>
    simp only [scanUnsigned] at h
    split at h
    · rename_i hc
      simp only [Option.map_eq_some', Prod.mk.injEq] at h
      obtain ⟨⟨r1, r2⟩, hr, rfl, rfl⟩ := h
      obtain ⟨frac, exp, rfl, hfrac, hexp⟩ := scanFrac_sound _ _ _ hr
      exact ⟨[c], frac, exp, rfl, Or.inl (by rw [hc]), hfrac, hexp⟩
    · rename_i hc
      split at h
      · rename_i hd
        simp only [Option.map_eq_some', Prod.mk.injEq] at h
        obtain ⟨⟨r1, r2⟩, hr, rfl, rfl⟩ := h
        obtain ⟨frac, exp, rfl, hfrac, hexp⟩ := scanFrac_sound _ _ _ hr
        refine ⟨c :: (spanDigits cs).1, frac, exp, by simp, ?_, hfrac, hexp⟩
        exact Or.inr ⟨c, (spanDigits cs).1, rfl, hd, hc, spanDigits_digits cs⟩
      · simp at h

/-- A scanned number is a number of the grammar. -/
theorem scanNumber_sound (cs lit rest : List Char) (h : scanNumber cs = some (lit, rest)) :
    JNumber lit := by
  cases cs with
  | nil => simp [scanNumber] at h
  | cons c cs =>
    simp only [scanNumber] at h
    split at h
    · rename_i hc
      simp only [Option.map_eq_some', Prod.mk.injEq] at h
      obtain ⟨⟨r1, r2⟩, hr, rfl, rfl⟩ := h
      obtain ⟨int, frac, exp, rfl, hint, hfrac, hexp⟩ := scanUnsigned_sound _ _ _ hr
      exact ⟨[c], int, frac, exp, rfl, Or.inr (by rw [hc]), hint, hfrac, hexp⟩
    · obtain ⟨int, frac, exp, rfl, hint, hfrac, hexp⟩ := scanUnsigned_sound _ _ _ h
      exact ⟨[], int, frac, exp, rfl, Or.inl rfl, hint, hfrac, hexp⟩

/-- Soundness of the scanner: what it consumes for a value is white space and
a value of the grammar; for the members of an object and the further items of
an array, the text up to the closing brace or bracket is members or elements
of the grammar. -/
theorem scan_sound (f : Nat) :
    (∀ d cs v rest, scanValue f d cs = some (v, rest) →
      ∃ ws pre, IsWS ws ∧ Derives .value d pre ∧ cs = ws ++ (pre ++ rest)) ∧
    (∀ d cs ms rest, scanMembers f d cs = some (ms, rest) →
      ∀ ws0, IsWS ws0 → ∃ pre, Derives .members d (ws0 ++ pre) ∧ cs = pre ++ '}' :: rest) ∧
    (∀ d cs its rest, scanItems f d cs = some (its, rest) →
      ∀ ws1 x, IsWS ws1 → Derives .value d x →
        ∃ pre, Derives .elements d (ws1 ++ (x ++ pre)) ∧ cs = pre ++ ']' :: rest) := by
  induction f with
  | zero =>
    refine ⟨?_, ?_, ?_⟩ <;> intro d cs v rest h
    · simp [scanValue] at h
    · simp [scanMembers] at h
    · simp [scanItems] at h
  | succ f ih =>
    obtain ⟨ihV, ihM, ihI⟩ := ih
    refine ⟨?_, ?_, ?_⟩
    · intro d cs v rest h
      rw [scanValue] at h
      cases hsk : skipSpace cs with
      | nil => simp [hsk] at h
      | cons c rest0 =>
        obtain ⟨ws, hws, hcs⟩ := skipSpace_ws cs c rest0 hsk
        simp only [hsk] at h
        split at h
        · rename_i hc
          split at h
          · rename_i hdepth
            cases hsk1 : skipSpace rest0 with
            | nil => simp [hsk1] at h
            | cons c1 rest1 =>
              obtain ⟨ws1, hws1, hrest0⟩ := skipSpace_ws rest0 c1 rest1 hsk1
              simp only [hsk1] at h
              split at h
              · rename_i hc1
                simp only [Option.some.injEq, Prod.mk.injEq] at h
                obtain ⟨-, rfl⟩ := h
                refine ⟨ws, '{' :: (ws1 ++ ['}']), hws, Derives.emptyObject d ws1 hdepth hws1, ?_⟩
                rw [hcs, hrest0, hc, hc1]
                simp
              · simp only [Option.map_eq_some', Prod.mk.injEq] at h
                obtain ⟨⟨ms, r2⟩, hr, -, rfl⟩ := h
                obtain ⟨pm, hpm, hrest⟩ := ihM _ _ _ _ hr ws1 hws1
                refine ⟨ws, '{' :: ((ws1 ++ pm) ++ ['}']), hws,
                  Derives.object d (ws1 ++ pm) hdepth hpm, ?_⟩
                rw [hcs, hrest0, hrest, hc]
                simp
          · simp at h
        · rename_i hc
          split at h
          · rename_i hb
            split at h
            · rename_i hdepth
              cases hsk1 : skipSpace rest0 with
              | nil => simp [hsk1] at h
              | cons c1 rest1 =>
                obtain ⟨ws1, hws1, hrest0⟩ := skipSpace_ws rest0 c1 rest1 hsk1
                simp only [hsk1] at h
                split at h
                · rename_i hc1
                  simp only [Option.some.injEq, Prod.mk.injEq] at h
                  obtain ⟨-, rfl⟩ := h
                  refine ⟨ws, '[' :: (ws1 ++ [']']), hws,
                    Derives.emptyArray d ws1 hdepth hws1, ?_⟩
                  rw [hcs, hrest0, hb, hc1]
                  simp
                · cases hv1 : scanValue f (d + 1) (c1 :: rest1) with
                  | none => simp [hv1] at h
                  | some r1 =>
                    obtain ⟨v1, rest2⟩ := r1
                    simp only [hv1, Option.map_eq_some', Prod.mk.injEq] at h
                    obtain ⟨⟨its, r2⟩, hr, -, rfl⟩ := h
                    obtain ⟨ws2, x, hws2, hx, hrest1⟩ := ihV _ _ _ _ hv1
                    obtain ⟨pi, hpi, hrest2⟩ := ihI _ _ _ _ hr (ws1 ++ ws2) x
                      (isWS_append hws1 hws2) hx
                    refine ⟨ws, '[' :: (((ws1 ++ ws2) ++ (x ++ pi)) ++ [']']), hws,
                      Derives.array d _ hdepth hpi, ?_⟩
                    rw [hcs, hrest0, hrest1, hrest2, hb]
                    simp
            · simp at h
          · rename_i hb
            split at h
            · rename_i hq
              simp only [Option.map_eq_some', Prod.mk.injEq] at h
              obtain ⟨⟨raw, r2⟩, hr, -, rfl⟩ := h
              obtain ⟨hraw, -⟩ := scanStringFrom_split _ _ _ _ hr
              refine ⟨ws, '"' :: (raw ++ ['"']), hws,
                Derives.string d raw (scanString_sound _ _ _ hr), ?_⟩
              rw [hcs, hraw, hq]
              simp
            · split at h
              · rename_i ht1
                simp only [Option.map_eq_some', Prod.mk.injEq] at h
                obtain ⟨r2, hr, -, rfl⟩ := h
                obtain ⟨hlit, -⟩ := dropLiteral_split _ _ _ hr
                refine ⟨ws, ['t', 'r', 'u', 'e'], hws, Derives.litTrue d, ?_⟩
                rw [hcs, hlit, ht1]
                simp
              · split at h
                · rename_i hf1
                  simp only [Option.map_eq_some', Prod.mk.injEq] at h
                  obtain ⟨r2, hr, -, rfl⟩ := h
                  obtain ⟨hlit, -⟩ := dropLiteral_split _ _ _ hr
                  refine ⟨ws, ['f', 'a', 'l', 's', 'e'], hws, Derives.litFalse d, ?_⟩
                  rw [hcs, hlit, hf1]
                  simp
                · split at h
                  · rename_i hn1
                    simp only [Option.map_eq_some', Prod.mk.injEq] at h
                    obtain ⟨r2, hr, -, rfl⟩ := h
                    obtain ⟨hlit, -⟩ := dropLiteral_split _ _ _ hr
                    refine ⟨ws, ['n', 'u', 'l', 'l'], hws, Derives.litNull d, ?_⟩
                    rw [hcs, hlit, hn1]
                    simp
                  · simp only [Option.map_eq_some', Prod.mk.injEq] at h
                    obtain ⟨⟨lit, r2⟩, hr, -, rfl⟩ := h
                    obtain ⟨hlit, -, -⟩ := scanNumber_split _ _ _ hr
                    refine ⟨ws, lit, hws, Derives.number d lit (scanNumber_sound _ _ _ hr), ?_⟩
                    rw [hcs, hlit]
    · intro d cs ms rest h ws0 hws0
      rw [scanMembers] at h
      cases hsk : skipSpace cs with
      | nil => simp [hsk] at h
      | cons c rest0 =>
        obtain ⟨ws, hws, hcs⟩ := skipSpace_ws cs c rest0 hsk
        simp only [hsk] at h
        split at h
        · rename_i hc
          cases hkey : scanString rest0 with
          | none => simp [hkey] at h
          | some kr =>
            obtain ⟨key, rest1⟩ := kr
            obtain ⟨hrest0, -⟩ := scanStringFrom_split _ _ _ _ hkey
            have hkeyc := scanString_sound _ _ _ hkey
            simp only [hkey] at h
            cases hsk2 : skipSpace rest1 with
            | nil => simp [hsk2] at h
            | cons c2 rest2 =>
              obtain ⟨ws2, hws2, hrest1⟩ := skipSpace_ws rest1 c2 rest2 hsk2
              simp only [hsk2] at h
              split at h
              · rename_i hc2
                cases hval : scanValue f d rest2 with
                | none => simp [hval] at h
                | some r =>
                  obtain ⟨v, rest3⟩ := r
                  obtain ⟨ws3, x, hws3, hx, hrest2⟩ := ihV _ _ _ _ hval
                  simp only [hval] at h
                  cases hsk4 : skipSpace rest3 with
                  | nil => simp [hsk4] at h
                  | cons c4 rest4 =>
                    obtain ⟨ws4, hws4, hrest3⟩ := skipSpace_ws rest3 c4 rest4 hsk4
                    simp only [hsk4] at h
                    split at h
                    · rename_i hc4
                      simp only [Option.map_eq_some', Prod.mk.injEq] at h
                      obtain ⟨⟨ms1, r2⟩, hr, -, rfl⟩ := h
                      obtain ⟨pm, hpm, hrest4⟩ := ihM _ _ _ _ hr [] isWS_nil
                      refine ⟨ws ++ '"' :: (key ++ '"' :: (ws2 ++ ':' :: (ws3 ++ (x ++
                        (ws4 ++ ',' :: pm))))), ?_, ?_⟩
                      · have := Derives.members d (ws0 ++ ws) key ws2 ws3 x ws4 pm
                          (isWS_append hws0 hws) hkeyc hws2 hws3 hx hws4
                          (by simpa using hpm)
                        simpa using this
                      · rw [hcs, hrest0, hrest1, hrest2, hrest3, hrest4, hc, hc2, hc4]
                        simp
                    · split at h
                      · rename_i hc5
                        simp only [Option.some.injEq, Prod.mk.injEq] at h
                        obtain ⟨-, rfl⟩ := h
                        refine ⟨ws ++ '"' :: (key ++ '"' :: (ws2 ++ ':' :: (ws3 ++ (x ++ ws4)))),
                          ?_, ?_⟩
                        · have := Derives.member d (ws0 ++ ws) key ws2 ws3 x ws4
                            (isWS_append hws0 hws) hkeyc hws2 hws3 hx hws4
                          simpa using this
                        · rw [hcs, hrest0, hrest1, hrest2, hrest3, hc, hc2, hc5]
                          simp
                      · simp at h
              · simp at h
        · simp at h
    · intro d cs its rest h ws1 x hws1 hx
      rw [scanItems] at h
      cases hsk : skipSpace cs with
      | nil => simp [hsk] at h
      | cons c rest0 =>
        obtain ⟨ws, hws, hcs⟩ := skipSpace_ws cs c rest0 hsk
        simp only [hsk] at h
        split at h
        · rename_i hc
          simp only [Option.some.injEq, Prod.mk.injEq] at h
          obtain ⟨-, rfl⟩ := h
          exact ⟨ws, Derives.element d ws1 x ws hws1 hx hws, by rw [hcs, hc]⟩
        · split at h
          · rename_i hcomma
            cases hval : scanValue f d rest0 with
            | none => simp [hval] at h
            | some r =>
              obtain ⟨v, rest1⟩ := r
              obtain ⟨ws2, x2, hws2, hx2, hrest0⟩ := ihV _ _ _ _ hval
              simp only [hval, Option.map_eq_some', Prod.mk.injEq] at h
              obtain ⟨⟨its1, r2⟩, hr, -, rfl⟩ := h
              obtain ⟨pi, hpi, hrest1⟩ := ihI _ _ _ _ hr ws2 x2 hws2 hx2
              refine ⟨ws ++ ',' :: (ws2 ++ (x2 ++ pi)),
                Derives.elements d ws1 x ws _ hws1 hx hws hpi, ?_⟩
              rw [hcs, hrest0, hrest1, hcomma]
              simp
          · simp at h

/-- What may follow a value does not start with a digit. -/
theorem delim_noDigit {t : List Char} (h : Delim t) : NoDigitHead t := by
  intro c r hc
  rcases h c r hc with h1 | rfl | rfl | rfl
  · revert h1
    simp only [isSpace, isDigit, Bool.or_eq_true, beq_iff_eq, Bool.and_eq_false_imp,
      decide_eq_true_eq]
    rintro (((rfl | rfl) | rfl) | rfl) <;> decide
  · decide
  · decide
  · decide

/-- Digits in front of a text that does not start with a digit are read as the
run of digits. -/
theorem spanDigits_of (ds t : List Char) (hds : IsDigits ds) (ht : NoDigitHead t) :
    spanDigits (ds ++ t) = (ds, t) := by
  induction ds with
  | nil =>
    cases t with
    | nil => rfl
    | cons c r =>
      simp only [List.nil_append]
      rw [spanDigits, if_neg]
      rw [ht c r rfl]
      simp
  | cons d ds ih =>
    have hd : isDigit d = true := hds d (by simp)
    have := ih (fun x hx => hds x (List.mem_cons_of_mem _ hx))
    simp only [List.cons_append]
    rw [spanDigits, if_pos hd, this]

/-- White space in front of a character that is none is dropped. -/
theorem isWS_skipSpace (ws : List Char) (c : Char) (t : List Char) (hws : IsWS ws)
    (hc : isSpace c = false) : skipSpace (ws ++ c :: t) = c :: t := by
  induction ws with
  | nil =>
    simp only [List.nil_append]
    rw [skipSpace, if_neg]
    rw [hc]
    simp
  | cons a ws ih =>
    have ha : isSpace a = true := hws a (by simp)
    simp only [List.cons_append]
    rw [skipSpace, if_pos ha]
    exact ih (fun x hx => hws x (List.mem_cons_of_mem _ hx))

/-- Nothing is left of white space. -/
theorem isWS_skipSpace_nil (ws : List Char) (hws : IsWS ws) : skipSpace ws = [] := by
  induction ws with
  | nil => rfl
  | cons a ws ih =>
    have ha : isSpace a = true := hws a (by simp)
    rw [skipSpace, if_pos ha]
    exact ih (fun x hx => hws x (List.mem_cons_of_mem _ hx))

/-- An exponent of the grammar is scanned in front of what may follow a
value. -/
theorem scanExp_complete (exp t : List Char) (hexp : JExp exp) (ht : Delim t) :
    scanExp (exp ++ t) = some (exp, t) := by
  rcases hexp with rfl | ⟨e, sign, ds, he, hsign, hne, hds, rfl⟩
  · cases t with
    | nil => rfl
    | cons c r =>
      simp only [List.nil_append, scanExp]
      rw [if_neg]
      rintro (rfl | rfl)
      · have := ht _ _ rfl
        revert this
        decide
      · have := ht _ _ rfl
        revert this
        decide
  · have hsp := spanDigits_of ds t hds (delim_noDigit ht)
    cases ds with
    | nil => exact absurd rfl hne
    | cons d0 ds1 =>
      have hd0 : isDigit d0 = true := hds d0 (by simp)
      rcases hsign with rfl | rfl | rfl
      · simp only [List.nil_append, List.cons_append] at hsp ⊢
        simp only [scanExp, if_pos he]
        rw [if_neg, hsp]
        · simp
        · rintro (rfl | rfl) <;> revert hd0 <;> decide
      · simp only [List.cons_append, List.nil_append] at hsp ⊢
        simp only [scanExp, if_pos he]
        rw [if_pos (by simp), hsp]
        simp
      · simp only [List.cons_append, List.nil_append] at hsp ⊢
        simp only [scanExp, if_pos he]
        rw [if_pos (by simp), hsp]
        simp

/-- An exponent does not start with a digit. -/
theorem jexp_noDigit (exp t : List Char) (hexp : JExp exp) (ht : NoDigitHead t) :
    NoDigitHead (exp ++ t) := by
  rcases hexp with rfl | ⟨e, sign, ds, he, -, -, -, rfl⟩
  · simpa using ht
  · intro c r hc
    simp only [List.cons_append, List.cons.injEq] at hc
    rw [← hc.1]
    rcases he with rfl | rfl <;> decide

/-- Fraction and exponent of the grammar are scanned in front of what may
follow a value. -/
theorem scanFrac_complete (frac exp t : List Char) (hfrac : JFrac frac) (hexp : JExp exp)
    (ht : Delim t) : scanFrac (frac ++ (exp ++ t)) = some (frac ++ exp, t) := by
  rcases hfrac with rfl | ⟨ds, hne, hds, rfl⟩
  · simp only [List.nil_append]
    rw [scanFrac_of_not_dot, scanExp_complete exp t hexp ht]
    intro r hx
    rcases hexp with rfl | ⟨e, sign, ds, he, -, -, -, rfl⟩
    · simp only [List.nil_append] at hx
      have := ht _ _ hx
      revert this
      decide
    · simp only [List.cons_append, List.cons.injEq] at hx
      rcases he with rfl | rfl
      · exact absurd hx.1 (by decide)
      · exact absurd hx.1 (by decide)
  · have hsp := spanDigits_of ds (exp ++ t) hds (jexp_noDigit exp t hexp (delim_noDigit ht))
    have hemp : ds.isEmpty = false := by
      cases ds with
      | nil => exact absurd rfl hne
      | cons _ _ => rfl
    simp only [List.cons_append, scanFrac, if_pos, hsp, hemp, scanExp_complete exp t hexp ht]
    simp

/-- A fraction does not start with a digit. -/
theorem jfrac_noDigit (frac x : List Char) (hfrac : JFrac frac) (hx : NoDigitHead x) :
    NoDigitHead (frac ++ x) := by
  rcases hfrac with rfl | ⟨ds, -, -, rfl⟩
  · simpa using hx
  · intro c r hc
    simp only [List.cons_append, List.cons.injEq] at hc
    rw [← hc.1]
    decide

/-- A number of the grammar is scanned in front of what may follow a value. -/
theorem scanNumber_complete (lit t : List Char) (hlit : JNumber lit) (ht : Delim t) :
    scanNumber (lit ++ t) = some (lit, t) := by
  obtain ⟨minus, int, frac, exp, rfl, hminus, hint, hfrac, hexp⟩ := hlit
  have hfr := scanFrac_complete frac exp t hfrac hexp ht
  have hnd : NoDigitHead (frac ++ (exp ++ t)) :=
    jfrac_noDigit frac _ hfrac (jexp_noDigit exp t hexp (delim_noDigit ht))
  have huns : scanUnsigned (int ++ (frac ++ (exp ++ t))) = some (int ++ (frac ++ exp), t) := by
    rcases hint with rfl | ⟨d, ds, rfl, hd, hd0, hds⟩
    · simp only [List.cons_append, List.nil_append, scanUnsigned, if_pos, hfr]
      simp
    · have hsp := spanDigits_of ds _ hds hnd
      simp only [List.cons_append, scanUnsigned, if_neg hd0, if_pos hd, hsp, hfr]
      simp
  rcases hminus with rfl | rfl
  · simp only [List.nil_append, List.append_assoc] at huns ⊢
    rcases hint with rfl | ⟨d, ds, rfl, hd, hd0, hds⟩
    · simp only [List.cons_append, List.nil_append] at huns ⊢
      simp only [scanNumber]
      rw [if_neg (by decide), huns]
    · simp only [List.cons_append] at huns ⊢
      simp only [scanNumber]
      rw [if_neg, huns]
      rintro rfl
      revert hd
      decide
  · simp only [List.cons_append, List.nil_append, List.append_assoc] at huns ⊢
    simp only [scanNumber, if_pos, huns]
    simp

/-- A string of the grammar is scanned up to its closing quote. -/
theorem scanString_complete (raw t : List Char) (hraw : JChars raw) :
    scanStringFrom .plain (raw ++ '"' :: t) = some (raw, t) := by
  induction hraw with
  | nil =>
    simp only [List.nil_append]
    rw [scanStringFrom, if_pos rfl]
  | unescaped c rest hq hb hctl _ ih =>
    simp only [List.cons_append]
    rw [scanStringFrom, if_neg hq, if_neg hb, if_neg (by omega), ih]
    rfl
  | escape e rest he _ ih =>
    have heu : e ≠ 'u' := by
      rintro rfl
      revert he
      decide
    simp only [List.cons_append]
    rw [scanStringFrom, if_neg (by decide), if_pos rfl, scanStringFrom, if_neg heu, if_pos he, ih]
    rfl
  | unicode h1 h2 h3 h4 rest hh1 hh2 hh3 hh4 _ ih =>
    simp only [List.cons_append]
    rw [scanStringFrom, if_neg (by decide), if_pos rfl, scanStringFrom, if_pos rfl,
      scanStringFrom, if_pos hh1, if_neg (by decide), scanStringFrom, if_pos hh2,
      if_neg (by decide), scanStringFrom, if_pos hh3, if_neg (by decide), scanStringFrom,
      if_pos hh4, if_pos (by decide), ih]
    rfl

/-- The code points of the digits. -/
theorem isDigit_toNat (c : Char) (h : isDigit c = true) : 48 ≤ c.toNat ∧ c.toNat ≤ 57 := by
  simp only [isDigit, Bool.and_eq_true, decide_eq_true_eq] at h
  exact ⟨h.1, h.2⟩

/-- A digit is not white space and opens no other kind of value. -/
theorem digit_head (c : Char) (h : isDigit c = true) :
    isSpace c = false ∧ c ≠ '{' ∧ c ≠ '[' ∧ c ≠ '"' ∧ c ≠ 't' ∧ c ≠ 'f' ∧ c ≠ 'n' := by
  have hn := isDigit_toNat c h
  have key : ∀ x : Char, (x.toNat < 48 ∨ 57 < x.toNat) → c ≠ x := by
    rintro x hx rfl
    omega
  refine ⟨?_, key _ (by decide), key _ (by decide), key _ (by decide), key _ (by decide),
    key _ (by decide), key _ (by decide)⟩
  have h1 := key ' ' (by decide)
  have h2 := key '\t' (by decide)
  have h3 := key '\r' (by decide)
  have h4 := key '\n' (by decide)
  simp [isSpace, h1, h2, h3, h4]

/-- A number starts with a character that is not white space and opens no
other kind of value. -/
theorem jnumber_head (lit : List Char) (h : JNumber lit) :
    ∃ c r, lit = c :: r ∧ isSpace c = false ∧ c ≠ '{' ∧ c ≠ '[' ∧ c ≠ '"' ∧ c ≠ 't' ∧
      c ≠ 'f' ∧ c ≠ 'n' := by
  obtain ⟨minus, int, frac, exp, rfl, hminus, hint, -, -⟩ := h
  rcases hminus with rfl | rfl
  · rcases hint with rfl | ⟨d, ds, rfl, hd, -, -⟩
    · exact ⟨'0', _, rfl, by decide, by decide, by decide, by decide, by decide, by decide,
        by decide⟩
    · exact ⟨d, _, rfl, digit_head d hd⟩
  · exact ⟨'-', _, rfl, by decide, by decide, by decide, by decide, by decide, by decide,
      by decide⟩

/-- A scanned value does not start with a closing bracket, and is scanned the
same without the white space in front of it. -/
theorem scanValue_head (f d : Nat) (cs : List Char) (v : JSON) (rest : List Char)
    (h : scanValue f d cs = some (v, rest)) :
    ∃ c r, skipSpace cs = c :: r ∧ c ≠ ']' ∧ scanValue f d (c :: r) = some (v, rest) := by
  cases f with
  | zero => simp [scanValue] at h
  | succ f =>
    rw [scanValue] at h
    cases hsk : skipSpace cs with
    | nil => simp [hsk] at h
    | cons c r =>
      have hc := skipSpace_head cs c r hsk
      have hself : skipSpace (c :: r) = c :: r := by
        rw [skipSpace, if_neg]
        rw [hc]
        simp
      refine ⟨c, r, rfl, ?_, ?_⟩
      · rintro rfl
        simp only [hsk] at h
        rw [if_neg (by decide), if_neg (by decide), if_neg (by decide), if_neg (by decide),
          if_neg (by decide), if_neg (by decide)] at h
        simp [scanNumber, scanUnsigned, isDigit] at h
      · rw [scanValue, hself]
        simp only [hsk] at h
        exact h

/-- Scanned members do not start with a closing brace, and are scanned the
same without the white space in front of them. -/
theorem scanMembers_head (f d : Nat) (cs : List Char) (ms : List (List Char × JSON))
    (rest : List Char) (h : scanMembers f d cs = some (ms, rest)) :
    ∃ c r, skipSpace cs = c :: r ∧ c ≠ '}' ∧ scanMembers f d (c :: r) = some (ms, rest) := by
  cases f with
  | zero => simp [scanMembers] at h
  | succ f =>
    rw [scanMembers] at h
    cases hsk : skipSpace cs with
    | nil => simp [hsk] at h
    | cons c r =>
      have hc := skipSpace_head cs c r hsk
      have hself : skipSpace (c :: r) = c :: r := by
        rw [skipSpace, if_neg]
        rw [hc]
        simp
      refine ⟨c, r, rfl, ?_, ?_⟩
      · rintro rfl
        simp only [hsk] at h
        rw [if_neg (by decide)] at h
        simp at h
      · rw [scanMembers, hself]
        simp only [hsk] at h
        exact h

/-- White space and then a comma or a closing bracket or brace may follow a
value. -/
theorem delim_ws_cons (ws : List Char) (c : Char) (t : List Char) (hws : IsWS ws)
    (hc : c = ',' ∨ c = ']' ∨ c = '}') : Delim (ws ++ c :: t) := by
  intro x r hx
  cases ws with
  | nil =>
    simp only [List.nil_append, List.cons.injEq] at hx
    rw [← hx.1]
    exact Or.inr hc
  | cons a ws =>
    simp only [List.cons_append, List.cons.injEq] at hx
    rw [← hx.1]
    exact Or.inl (hws a (by simp))

/-- White space may follow a value. -/
theorem delim_ws (ws : List Char) (hws : IsWS ws) : Delim ws := by
  intro x r hx
  exact Or.inl (hws x (by rw [hx]; simp))

/-- Completeness of the scanner: a value of the grammar, behind white space
and in front of what may follow a value, is scanned whole; so are the elements
of an array in front of its closing bracket and the members of an object in
front of its closing brace, whenever the fuel is at least the length of the
input. -/
theorem derives_complete (k : JKind) (d : Nat) (text : List Char) (h : Derives k d text) :
    (k = .value → ∀ ws t f, IsWS ws → Delim t → (ws ++ (text ++ t)).length ≤ f →
      ∃ v, scanValue f d (ws ++ (text ++ t)) = some (v, t)) ∧
    (k = .elements → ∀ t f, (text ++ ']' :: t).length ≤ f →
      ∃ v0 its r2, scanValue f d (text ++ ']' :: t) = some (v0, r2) ∧
        scanItems f d r2 = some (its, t)) ∧
    (k = .members → ∀ t f, (text ++ '}' :: t).length ≤ f →
      ∃ ms, scanMembers f d (text ++ '}' :: t) = some (ms, t)) := by
  induction h with
  | litNull d =>
    refine ⟨fun _ ws t f hws _ hlen => ?_, nofun, nofun⟩
    obtain ⟨m, rfl⟩ : ∃ m, f = m + 1 := ⟨f - 1, by simp at hlen; omega⟩
    refine ⟨.null, ?_⟩
    simp only [List.cons_append, List.nil_append]
    rw [scanValue, isWS_skipSpace ws 'n' _ hws (by decide)]
    simp only
    rw [if_neg (by decide), if_neg (by decide), if_neg (by decide), if_neg (by decide),
      if_neg (by decide), if_pos trivial]
    simp [dropLiteral]
  | litTrue d =>
    refine ⟨fun _ ws t f hws _ hlen => ?_, nofun, nofun⟩
    obtain ⟨m, rfl⟩ : ∃ m, f = m + 1 := ⟨f - 1, by simp at hlen; omega⟩
    refine ⟨.bool true, ?_⟩
    simp only [List.cons_append, List.nil_append]
    rw [scanValue, isWS_skipSpace ws 't' _ hws (by decide)]
    simp only
    rw [if_neg (by decide), if_neg (by decide), if_neg (by decide), if_pos trivial]
    simp [dropLiteral]
  | litFalse d =>
    refine ⟨fun _ ws t f hws _ hlen => ?_, nofun, nofun⟩
    obtain ⟨m, rfl⟩ : ∃ m, f = m + 1 := ⟨f - 1, by simp at hlen; omega⟩
    refine ⟨.bool false, ?_⟩
    simp only [List.cons_append, List.nil_append]
    rw [scanValue, isWS_skipSpace ws 'f' _ hws (by decide)]
    simp only
    rw [if_neg (by decide), if_neg (by decide), if_neg (by decide), if_neg (by decide),
      if_pos trivial]
    simp [dropLiteral]
  | number d lit hlit =>
    refine ⟨fun _ ws t f hws ht hlen => ?_, nofun, nofun⟩
    obtain ⟨c, r, rfl, hsp, h1, h2, h3, h4, h5, h6⟩ := jnumber_head lit hlit
    obtain ⟨m, rfl⟩ : ∃ m, f = m + 1 := ⟨f - 1, by simp at hlen; omega⟩
    refine ⟨.num (c :: r), ?_⟩
    have hnum := scanNumber_complete (c :: r) t hlit ht
    simp only [List.cons_append] at hnum ⊢
    rw [scanValue, isWS_skipSpace ws c _ hws hsp]
    simp only
    rw [if_neg h1, if_neg h2, if_neg h3, if_neg h4, if_neg h5, if_neg h6, hnum]
    rfl
  | string d raw hraw =>
    refine ⟨fun _ ws t f hws _ hlen => ?_, nofun, nofun⟩
    obtain ⟨m, rfl⟩ : ∃ m, f = m + 1 := ⟨f - 1, by simp at hlen; omega⟩
    refine ⟨.str raw, ?_⟩
    have hstr := scanString_complete raw t hraw
    simp only [List.cons_append, List.append_assoc, List.nil_append]
    rw [scanValue, isWS_skipSpace ws '"' _ hws (by decide)]
    simp only
    rw [if_neg (by decide), if_neg (by decide), if_pos trivial, scanString, hstr]
    rfl
  | emptyArray d ws1 hdepth hws1 =>
    refine ⟨fun _ ws t f hws _ hlen => ?_, nofun, nofun⟩
    obtain ⟨m, rfl⟩ : ∃ m, f = m + 1 := ⟨f - 1, by simp at hlen; omega⟩
    refine ⟨.arr [], ?_⟩
    simp only [List.cons_append, List.append_assoc, List.nil_append]
    rw [scanValue, isWS_skipSpace ws '[' _ hws (by decide)]
    simp only
    rw [if_neg (by decide), if_pos trivial, if_pos hdepth,
      isWS_skipSpace ws1 ']' _ hws1 (by decide)]
    simp
  | array d items hdepth _ ih =>
    refine ⟨fun _ ws t f hws _ hlen => ?_, nofun, nofun⟩
    obtain ⟨m, rfl⟩ : ∃ m, f = m + 1 := ⟨f - 1, by simp at hlen; omega⟩
    obtain ⟨v0, its, r2, hv0, hits⟩ := ih.2.1 rfl t m (by simp at hlen ⊢; omega)
    obtain ⟨c1, rest1, hsk, hc1, hv1⟩ := scanValue_head _ _ _ _ _ hv0
    refine ⟨.arr (v0 :: its), ?_⟩
    simp only [List.cons_append, List.append_assoc, List.nil_append]
    rw [scanValue, isWS_skipSpace ws '[' _ hws (by decide)]
    simp only
    rw [if_neg (by decide), if_pos trivial, if_pos hdepth, hsk]
    simp only
    rw [if_neg hc1, hv1]
    simp only [hits]
    rfl
  | emptyObject d ws1 hdepth hws1 =>
    refine ⟨fun _ ws t f hws _ hlen => ?_, nofun, nofun⟩
    obtain ⟨m, rfl⟩ : ∃ m, f = m + 1 := ⟨f - 1, by simp at hlen; omega⟩
    refine ⟨.obj [], ?_⟩
    simp only [List.cons_append, List.append_assoc, List.nil_append]
    rw [scanValue, isWS_skipSpace ws '{' _ hws (by decide)]
    simp only
    rw [if_pos trivial, if_pos hdepth, isWS_skipSpace ws1 '}' _ hws1 (by decide)]
    simp
  | object d fields hdepth _ ih =>
    refine ⟨fun _ ws t f hws _ hlen => ?_, nofun, nofun⟩
    obtain ⟨m, rfl⟩ : ∃ m, f = m + 1 := ⟨f - 1, by simp at hlen; omega⟩
    obtain ⟨ms, hms⟩ := ih.2.2 rfl t m (by simp at hlen ⊢; omega)
    obtain ⟨c1, rest1, hsk, hc1, hm1⟩ := scanMembers_head _ _ _ _ _ hms
    refine ⟨.obj ms, ?_⟩
    simp only [List.cons_append, List.append_assoc, List.nil_append]
    rw [scanValue, isWS_skipSpace ws '{' _ hws (by decide)]
    simp only
    rw [if_pos trivial, if_pos hdepth, hsk]
    simp only
    rw [if_neg hc1, hm1]
    rfl
  | element d ws1 v ws2 hws1 _ hws2 ih =>
    refine ⟨nofun, fun _ t f hlen => ?_, nofun⟩
    obtain ⟨m, rfl⟩ : ∃ m, f = m + 1 := ⟨f - 1, by simp at hlen; omega⟩
    obtain ⟨v0, hv0⟩ := ih.1 rfl ws1 (ws2 ++ ']' :: t) (m + 1) hws1
      (delim_ws_cons ws2 ']' t hws2 (Or.inr (Or.inl rfl))) (by simp at hlen ⊢; omega)
    refine ⟨v0, [], ws2 ++ ']' :: t, by simpa using hv0, ?_⟩
    rw [scanItems, isWS_skipSpace ws2 ']' _ hws2 (by decide)]
    simp
  | elements d ws1 v ws2 rest hws1 _ hws2 _ ihv ihrest =>
    refine ⟨nofun, fun _ t f hlen => ?_, nofun⟩
    obtain ⟨m, rfl⟩ : ∃ m, f = m + 1 := ⟨f - 1, by simp at hlen; omega⟩
    obtain ⟨v0, hv0⟩ := ihv.1 rfl ws1 (ws2 ++ ',' :: (rest ++ ']' :: t)) (m + 1) hws1
      (delim_ws_cons ws2 ',' _ hws2 (Or.inl rfl)) (by simp at hlen ⊢; omega)
    obtain ⟨v1, its, r2, hv1, hits⟩ := ihrest.2.1 rfl t m (by simp at hlen ⊢; omega)
    refine ⟨v0, v1 :: its, ws2 ++ ',' :: (rest ++ ']' :: t), by simpa using hv0, ?_⟩
    rw [scanItems, isWS_skipSpace ws2 ',' _ hws2 (by decide)]
    simp only
    rw [if_neg (by decide), if_pos trivial, hv1]
    simp only [hits]
    rfl
  | member d ws1 key ws2 ws3 v ws4 hws1 hkey hws2 hws3 _ hws4 ih =>
    refine ⟨nofun, nofun, fun _ t f hlen => ?_⟩
    obtain ⟨m, rfl⟩ : ∃ m, f = m + 1 := ⟨f - 1, by simp at hlen; omega⟩
    obtain ⟨v0, hv0⟩ := ih.1 rfl ws3 (ws4 ++ '}' :: t) m hws3
      (delim_ws_cons ws4 '}' t hws4 (Or.inr (Or.inr rfl))) (by simp at hlen ⊢; omega)
    refine ⟨[(key, v0)], ?_⟩
    have hstr := scanString_complete key (ws2 ++ ':' :: (ws3 ++ (v ++ (ws4 ++ '}' :: t)))) hkey
    simp only [List.cons_append, List.append_assoc, List.nil_append]
    rw [scanMembers, isWS_skipSpace ws1 '"' _ hws1 (by decide)]
    simp only
    rw [if_pos trivial, scanString, hstr]
    simp only
    rw [isWS_skipSpace ws2 ':' _ hws2 (by decide)]
    simp only
    rw [if_pos trivial, hv0]
    simp only
    rw [isWS_skipSpace ws4 '}' _ hws4 (by decide)]
    simp
  | members d ws1 key ws2 ws3 v ws4 rest hws1 hkey hws2 hws3 _ hws4 _ ihv ihrest =>
    refine ⟨nofun, nofun, fun _ t f hlen => ?_⟩
    obtain ⟨m, rfl⟩ : ∃ m, f = m + 1 := ⟨f - 1, by simp at hlen; omega⟩
    obtain ⟨v0, hv0⟩ := ihv.1 rfl ws3 (ws4 ++ ',' :: (rest ++ '}' :: t)) m hws3
      (delim_ws_cons ws4 ',' _ hws4 (Or.inl rfl)) (by simp at hlen ⊢; omega)
    obtain ⟨ms, hms⟩ := ihrest.2.2 rfl t m (by simp at hlen ⊢; omega)
    refine ⟨(key, v0) :: ms, ?_⟩
    have hstr := scanString_complete key
      (ws2 ++ ':' :: (ws3 ++ (v ++ (ws4 ++ ',' :: (rest ++ '}' :: t))))) hkey
    simp only [List.cons_append, List.append_assoc, List.nil_append]
    rw [scanMembers, isWS_skipSpace ws1 '"' _ hws1 (by decide)]
    simp only
    rw [if_pos trivial, scanString, hstr]
    simp only
    rw [isWS_skipSpace ws2 ':' _ hws2 (by decide)]
    simp only
    rw [if_pos trivial, hv0]
    simp only
    rw [isWS_skipSpace ws4 ',' _ hws4 (by decide)]
    simp only
    rw [if_pos trivial, hms]
    rfl

/-- What `readValue` consumes is white space and a value of the grammar. -/
theorem readValue_sound (body : List Char) (v : JSON) (rest : List Char)
    (h : readValue body = some (v, rest)) :
    ∃ ws pre, IsWS ws ∧ Derives .value 0 pre ∧ body = ws ++ (pre ++ rest) :=
  (scan_sound (body.length + 1)).1 0 body v rest h

/-- The decoder's scanner accepts a body as one value with white space around
it exactly when the body is a JSON text of the grammar of RFC 8259 (nested no
deeper than the scanner allows). -/
theorem isWellFormedJSON_iff (body : List Char) :
    isWellFormedJSON body = true ↔ JSONText body := by
  constructor
  · intro h
    unfold isWellFormedJSON at h
    cases hr : readValue body with
    | none => simp [hr] at h
    | some r =>
      obtain ⟨v, rest⟩ := r
      simp only [hr, List.isEmpty_iff] at h
      obtain ⟨ws, pre, hws, hpre, hbody⟩ := readValue_sound body v rest hr
      exact ⟨ws, pre, rest, hws, hpre, skipSpace_nil_ws rest h, hbody⟩
  · rintro ⟨ws1, v, ws2, hws1, hv, hws2, rfl⟩
    obtain ⟨v0, hv0⟩ := (derives_complete .value 0 v hv).1 rfl ws1 ws2
      ((ws1 ++ (v ++ ws2)).length + 1) hws1 (delim_ws ws2 hws2) (Nat.le_succ _)
    unfold isWellFormedJSON readValue
    rw [hv0]
    simp [isWS_skipSpace_nil ws2 hws2]

/-! ### The handlers and the adapter -/

/-- What `handleWebhook` does once the body has been decoded. -/
theorem handleWebhook_decoded {σ : Type} (L : Lib) (S : Storage σ) (store : σ)
    (body : List Char) (payload : WebhookPayload) (hdec : Decode L body = .ok payload) :
    handleWebhook L S store body =
      if payload.Hostname = "" then
        ⟨httpError "Missing hostname in payload" StatusBadRequest, [], store⟩
      else
        match payload.GeoData with
        | none => ⟨httpError "Missing geo_data in payload" StatusBadRequest, [], store⟩
        | some data =>
          match (S.Save store payload.Hostname data).err with
          | some err =>
            ⟨httpError "Failed to save data" StatusInternalServerError,
              [.insertFailed err], (S.Save store payload.Hostname data).store⟩
          | none =>
            ⟨⟨StatusCreated, some "application/json",
                .json [("status", .str "success"),
                       ("message", .str "Data saved successfully"),
                       ("id", .uint (S.Save store payload.Hostname data).data.ID)]⟩,
              [.added (S.Save store payload.Hostname data).data.ID
                (S.Save store payload.Hostname data).data.Country
                (S.Save store payload.Hostname data).data.City
                (S.Save store payload.Hostname data).data.ISP],
              (S.Save store payload.Hostname data).store⟩ := by
  unfold handleWebhook
  rw [hdec]

/-- C1: when the body decodes to a payload whose hostname is empty or whose
geo_data is nil, `handleWebhook` answers 400, leaves the state of the storage
handle as it was, and its outcome is the same for every implementation of
`Storage`: no method of the store is called, `Save` in particular. -/
theorem handleWebhook_rejects_incomplete_payload {σ : Type} (L : Lib) (S : Storage σ)
    (store : σ) (body : List Char) (payload : WebhookPayload)
    (hdec : Decode L body = .ok payload)
    (hbad : payload.Hostname = "" ∨ payload.GeoData = none) :
    (handleWebhook L S store body).resp.status = 400 ∧
    (handleWebhook L S store body).store = store ∧
    ∀ S2 : Storage σ, handleWebhook L S2 store body = handleWebhook L S store body := by
  have key : ∀ S2 : Storage σ, (handleWebhook L S2 store body).resp.status = 400 ∧
      (handleWebhook L S2 store body).store = store ∧
      ∃ msg, handleWebhook L S2 store body = ⟨httpError msg StatusBadRequest, [], store⟩ ∧
        (msg = if payload.Hostname = "" then "Missing hostname in payload"
          else "Missing geo_data in payload") := by
    intro S2
    rw [handleWebhook_decoded L S2 store body payload hdec]
    by_cases hh : payload.Hostname = ""
    · simp [hh, httpError, StatusBadRequest]
    · rcases hbad with hb | hb
      · exact absurd hb hh
      · simp [hh, hb, httpError, StatusBadRequest]
  refine ⟨(key S).1, (key S).2.1, ?_⟩
  intro S2
  obtain ⟨m1, h1, hm1⟩ := (key S).2.2
  obtain ⟨m2, h2, hm2⟩ := (key S2).2.2
  rw [h1, h2, hm1, hm2]

/-- Witness of C1: a body with geo_data and no hostname, against the reference
backend. -/
theorem handleWebhook_rejects_incomplete_payload_witness :
    Decode exampleLib bodyNoHostname = .ok ⟨some GeoData.zero, "", Time.zero⟩ ∧
    (handleWebhook exampleLib (PostgresStorage pgModel) PG.empty bodyNoHostname).resp.status
      = 400 ∧
    (handleWebhook exampleLib (PostgresStorage pgModel) PG.empty bodyNoHostname).store.rows
      = [] :=
  ⟨rfl,
   (handleWebhook_rejects_incomplete_payload exampleLib (PostgresStorage pgModel) PG.empty
      bodyNoHostname ⟨some GeoData.zero, "", Time.zero⟩ rfl (Or.inl rfl)).1,
   congrArg PG.rows
    (handleWebhook_rejects_incomplete_payload exampleLib (PostgresStorage pgModel) PG.empty
      bodyNoHostname ⟨some GeoData.zero, "", Time.zero⟩ rfl (Or.inl rfl)).2.1⟩

/-- Counterexample to C2: `bodyTrailing` is not well-formed JSON (bytes `xyz`
follow the object): it is no JSON text of the grammar, and the scanner does not
accept it as one value.  Yet `handleWebhook` answers 201 and `Save` has
inserted a row for it. -/
theorem handleWebhook_accepts_trailing_bytes :
    ¬ JSONText bodyTrailing ∧
    isWellFormedJSON bodyTrailing = false ∧
    (handleWebhook exampleLib (PostgresStorage pgModel) PG.empty bodyTrailing).resp.status
      = 201 ∧
    (handleWebhook exampleLib (PostgresStorage pgModel) PG.empty bodyTrailing).store.rows
      = [{ pgDataOf "host-1" GeoData.zero with ID := 1 }] := by
  refine ⟨?_, rfl, rfl, rfl⟩
  intro h
  have h1 := (isWellFormedJSON_iff bodyTrailing).2 h
  have h2 : isWellFormedJSON bodyTrailing = false := rfl
  rw [h2] at h1
  exact Bool.noConfusion h1

/-- C2, amended: a body on which the decoder reports an error, as it does
whenever the first JSON value of the body is malformed or does not fit the
payload, is answered with 400 "Invalid request body" and no call of the store.
A body that is not a JSON text and yet decodes is a JSON text followed by
trailing bytes, and is handled exactly like that text alone.  And in general
the decoder does not read behind the first value: whatever bytes `t` are
appended to a body that decodes, the payload and the whole outcome of the
request are the same as without them. -/
theorem handleWebhook_malformed_body {σ : Type} (L : Lib) (S : Storage σ) (store : σ)
    (body t : List Char) :
    (∀ e, Decode L body = .error e →
      (handleWebhook L S store body).resp = httpError "Invalid request body" 400 ∧
      (handleWebhook L S store body).store = store ∧
      ∀ S2 : Storage σ, handleWebhook L S2 store body = handleWebhook L S store body) ∧
    (readValue body = none → Decode L body = .error .malformed) ∧
    (¬ JSONText body → ∀ p, Decode L body = .ok p →
      ∃ pre rest, body = pre ++ rest ∧ skipSpace rest ≠ [] ∧ JSONText pre ∧
        Decode L pre = .ok p ∧
        handleWebhook L S store body = handleWebhook L S store pre) ∧
    (∀ p, Decode L body = .ok p →
      Decode L (body ++ t) = .ok p ∧
      handleWebhook L S store (body ++ t) = handleWebhook L S store body) := by
  have happ : ∀ (b u : List Char) (p : WebhookPayload), Decode L b = .ok p →
      handleWebhook L S store (b ++ u) = handleWebhook L S store b := by
    intro b u p hb
    rw [handleWebhook_decoded L S store (b ++ u) p (Decode_append L b u p hb),
      handleWebhook_decoded L S store b p hb]
  refine ⟨?_, ?_, ?_, ?_⟩
  · intro e he
    have hd : ∀ S2 : Storage σ, handleWebhook L S2 store body =
        ⟨httpError "Invalid request body" StatusBadRequest, [], store⟩ := by
      intro S2
      simp [handleWebhook, he]
    exact ⟨by rw [hd S]; rfl, by rw [hd S], fun S2 => by rw [hd S2, hd S]⟩
  · intro hread
    simp [Decode, hread]
  · intro hbad p hp
    have hbad2 : isWellFormedJSON body = false := by
      cases hwf : isWellFormedJSON body with
      | false => rfl
      | true => exact absurd ((isWellFormedJSON_iff body).1 hwf) hbad
    obtain ⟨pre, rest, hbody, hrest, hwf, hpre⟩ := Decode_truncate L body p hbad2 hp
    refine ⟨pre, rest, hbody, hrest, (isWellFormedJSON_iff pre).1 hwf, hpre, ?_⟩
    rw [hbody]
    exact happ pre rest p hpre
  · intro p hp
    exact ⟨Decode_append L body t p hp, happ body t p hp⟩

/-- The example request followed by any bytes at all is handled exactly like the
example request alone, whatever the store. -/
theorem handleWebhook_exampleBody_trailing {σ : Type} (S : Storage σ) (store : σ)
    (trailing : List Char) :
    handleWebhook exampleLib S store (exampleBody ++ trailing) =
      handleWebhook exampleLib S store exampleBody := by
  have h1 : Decode exampleLib (exampleBody ++ trailing) = .ok examplePayload := rfl
  have h2 : Decode exampleLib exampleBody = .ok examplePayload := rfl
  rw [handleWebhook_decoded exampleLib S store _ examplePayload h1,
    handleWebhook_decoded exampleLib S store _ examplePayload h2]

/-- Witness of C2, amended.  A body that breaks off inside its first value is no
JSON text and is answered 400.  The object `bodyObject`, a JSON text, followed
by `xyz` is handled like the object alone, which is answered 201; and
`bodyTrailing`, no JSON text but decoded, splits into a JSON text and trailing
bytes. -/
theorem handleWebhook_malformed_body_witness :
    (¬ JSONText bodyTruncated ∧
      (handleWebhook exampleLib (PostgresStorage pgModel) PG.empty bodyTruncated).resp =
        httpError "Invalid request body" 400) ∧
    (JSONText bodyObject ∧
      handleWebhook exampleLib (PostgresStorage pgModel) PG.empty
          (bodyObject ++ ['x', 'y', 'z']) =
        handleWebhook exampleLib (PostgresStorage pgModel) PG.empty bodyObject ∧
      (handleWebhook exampleLib (PostgresStorage pgModel) PG.empty bodyObject).resp.status
        = 201) ∧
    (¬ JSONText bodyTrailing ∧
      ∃ pre rest, bodyTrailing = pre ++ rest ∧ skipSpace rest ≠ [] ∧ JSONText pre ∧
        Decode exampleLib pre = .ok ⟨some GeoData.zero, "host-1", Time.zero⟩ ∧
        handleWebhook exampleLib (PostgresStorage pgModel) PG.empty bodyTrailing =
          handleWebhook exampleLib (PostgresStorage pgModel) PG.empty pre) := by
  have hno : ∀ b : List Char, isWellFormedJSON b = false → ¬ JSONText b := by
    intro b hb h
    rw [(isWellFormedJSON_iff b).2 h] at hb
    exact Bool.noConfusion hb
  refine ⟨⟨hno _ rfl, ?_⟩, ⟨(isWellFormedJSON_iff _).1 rfl, ?_, rfl⟩, ⟨hno _ rfl, ?_⟩⟩
  · exact ((handleWebhook_malformed_body exampleLib (PostgresStorage pgModel) PG.empty
      bodyTruncated []).1 .malformed rfl).1
  · exact ((handleWebhook_malformed_body exampleLib (PostgresStorage pgModel) PG.empty
      bodyObject ['x', 'y', 'z']).2.2.2 ⟨some GeoData.zero, "host-1", Time.zero⟩ rfl).2
  · exact (handleWebhook_malformed_body exampleLib (PostgresStorage pgModel) PG.empty
      bodyTrailing []).2.2.1 (hno _ rfl) ⟨some GeoData.zero, "host-1", Time.zero⟩ rfl

/-- C3: when the body decodes to a payload with a hostname and a geo_data record
and `Save` returns no error, `handleWebhook` answers 201 with the JSON body
`status: "success"`, `message: "Data saved successfully"` and `id`: the ID the
record carries after `Save`, and the store is in the state `Save` left.  With
the adapter as the store, that ID is the one of the row the backend handed
back, whatever ID the request supplied. -/
theorem handleWebhook_created {σ : Type} (L : Lib) (S : Storage σ) (store : σ)
    (body : List Char) (payload : WebhookPayload) (data : GeoData)
    (hdec : Decode L body = .ok payload) (hhost : payload.Hostname ≠ "")
    (hgeo : payload.GeoData = some data)
    (hsave : (S.Save store payload.Hostname data).err = none) :
    (handleWebhook L S store body).resp =
      ⟨201, some "application/json",
        .json [("status", .str "success"), ("message", .str "Data saved successfully"),
               ("id", .uint (S.Save store payload.Hostname data).data.ID)]⟩ ∧
    (handleWebhook L S store body).store = (S.Save store payload.Hostname data).store ∧
    ∀ G : Gorm σ, S = PostgresStorage G →
      (S.Save store payload.Hostname data).data.ID =
        (G.Create store (pgDataOf payload.Hostname data)).value.ID := by
  refine ⟨?_, ?_, ?_⟩
  · rw [handleWebhook_decoded L S store body payload hdec]
    simp [hhost, hgeo, hsave, StatusCreated]
  · rw [handleWebhook_decoded L S store body payload hdec]
    simp [hhost, hgeo, hsave]
  · intro G hS
    subst hS
    simp only [PostgresStorage, PostgresStorage.Save] at hsave ⊢
    cases hc : (G.Create store (pgDataOf payload.Hostname data)).err with
    | some e => simp [hc] at hsave
    | none => simp [hc]

/-- Witness of C3: the example request on an empty store is answered with id 1. -/
theorem handleWebhook_created_witness :
    Decode exampleLib exampleBody = .ok examplePayload ∧
    examplePayload.Hostname ≠ "" ∧
    ((PostgresStorage pgModel).Save PG.empty "host-1" exampleData).err = none ∧
    (handleWebhook exampleLib (PostgresStorage pgModel) PG.empty exampleBody).resp =
      ⟨201, some "application/json",
        .json [("status", .str "success"), ("message", .str "Data saved successfully"),
               ("id", .uint 1)]⟩ :=
  ⟨rfl, by decide, rfl,
   (handleWebhook_created exampleLib (PostgresStorage pgModel) PG.empty exampleBody
      examplePayload exampleData rfl (by decide) rfl rfl).1⟩

/-- C7: when the body decodes to a payload with a hostname and a geo_data record
and `Save` returns an error, `handleWebhook` answers 500 with the plain line
"Failed to save data" (no JSON body, no id) and logs the error. -/
theorem handleWebhook_save_failed {σ : Type} (L : Lib) (S : Storage σ) (store : σ)
    (body : List Char) (payload : WebhookPayload) (data : GeoData) (err : Error)
    (hdec : Decode L body = .ok payload) (hhost : payload.Hostname ≠ "")
    (hgeo : payload.GeoData = some data)
    (hsave : (S.Save store payload.Hostname data).err = some err) :
    (handleWebhook L S store body).resp.status = 500 ∧
    (handleWebhook L S store body).resp.body = .text "Failed to save data" ∧
    (handleWebhook L S store body).log = [.insertFailed err] ∧
    (handleWebhook L S store body).store = (S.Save store payload.Hostname data).store := by
  rw [handleWebhook_decoded L S store body payload hdec]
  simp [hhost, hgeo, hsave, httpError, StatusInternalServerError]

/-- Witness of C7: the example request while the connection is down. -/
theorem handleWebhook_save_failed_witness :
    Decode exampleLib exampleBody = .ok examplePayload ∧
    ((PostgresStorage pgModel).Save downPG
      "host-1" exampleData).err = some (.text "connection refused") ∧
    (handleWebhook exampleLib (PostgresStorage pgModel)
      downPG exampleBody).resp.status
      = 500 :=
  ⟨rfl, rfl,
   (handleWebhook_save_failed exampleLib (PostgresStorage pgModel)
      downPG exampleBody
      examplePayload exampleData (.text "connection refused") rfl (by decide) rfl rfl).1⟩

/-- Counterexample to C4: on the reference backend, `Save` with the empty
hostname returns no error and inserts a row whose hostname is empty. -/
theorem Save_accepts_empty_hostname :
    (PostgresStorage.Save pgModel PG.empty "" exampleData).err = none ∧
    (PostgresStorage.Save pgModel PG.empty "" exampleData).store.rows =
      [{ pgDataOf "" exampleData with ID := 1 }] := by
  refine ⟨?_, ?_⟩ <;> rfl

/-- C4, amended: `Save` does not examine the hostname.  With the empty hostname
it hands the backend a row whose hostname is empty, returns exactly the error
of that insert (none when the backend accepts the row), and leaves the database
as the insert left it. -/
theorem Save_empty_hostname {σ : Type} (G : Gorm σ) (p : σ) (data : GeoData) :
    (pgDataOf "" data).Hostname = "" ∧
    (PostgresStorage.Save G p "" data).err = (G.Create p (pgDataOf "" data)).err ∧
    (PostgresStorage.Save G p "" data).store = (G.Create p (pgDataOf "" data)).db := by
  refine ⟨rfl, ?_, ?_⟩
  · unfold PostgresStorage.Save
    cases h : (G.Create p (pgDataOf "" data)).err <;> simp [h]
  · unfold PostgresStorage.Save
    cases h : (G.Create p (pgDataOf "" data)).err <;> simp [h]

/-- C5: for every hostname and record there is one row that `Save` hands to the
backend, whatever the backend: the insert of that row decides the state and the
error `Save` returns.  Its hostname is the given hostname, its twelve other
columns are the fields of the record, and its `ID` and `CreatedAt` are zero
whatever the record carried. -/
theorem Save_hands_over_row (hostname : String) (data : GeoData) :
    (∀ (σ : Type) (G : Gorm σ) (p : σ),
      (PostgresStorage.Save G p hostname data).store = (G.Create p (pgDataOf hostname data)).db ∧
      (PostgresStorage.Save G p hostname data).err = (G.Create p (pgDataOf hostname data)).err) ∧
    (∀ row : PostgresGeoData,
      (∀ (σ : Type) (G : Gorm σ) (p : σ),
        (PostgresStorage.Save G p hostname data).store = (G.Create p row).db) →
      row = pgDataOf hostname data) ∧
    (pgDataOf hostname data).Hostname = hostname ∧
    (pgDataOf hostname data).Country = data.Country ∧
    (pgDataOf hostname data).CountryCode = data.CountryCode ∧
    (pgDataOf hostname data).Region = data.Region ∧
    (pgDataOf hostname data).RegionName = data.RegionName ∧
    (pgDataOf hostname data).City = data.City ∧
    (pgDataOf hostname data).Zip = data.Zip ∧
    (pgDataOf hostname data).Lat = data.Lat ∧
    (pgDataOf hostname data).Lon = data.Lon ∧
    (pgDataOf hostname data).Timezone = data.Timezone ∧
    (pgDataOf hostname data).ISP = data.ISP ∧
    (pgDataOf hostname data).Org = data.Org ∧
    (pgDataOf hostname data).AS = data.AS ∧
    (pgDataOf hostname data).ID = 0 ∧
    (pgDataOf hostname data).CreatedAt = Time.zero := by
  have hcall : ∀ (σ : Type) (G : Gorm σ) (p : σ),
      (PostgresStorage.Save G p hostname data).store = (G.Create p (pgDataOf hostname data)).db ∧
      (PostgresStorage.Save G p hostname data).err =
        (G.Create p (pgDataOf hostname data)).err := by
    intro σ G p
    unfold PostgresStorage.Save
    cases h : (G.Create p (pgDataOf hostname data)).err <;> simp [h]
  refine ⟨hcall, ?_, rfl, rfl, rfl, rfl, rfl, rfl, rfl, rfl, rfl, rfl, rfl, rfl, rfl, rfl, rfl⟩
  intro row hrow
  have h1 := hrow _ recorder none
  rw [(hcall _ recorder none).1] at h1
  simp only [recorder, Option.some.injEq] at h1
  exact h1.symm

/-- C6: `Save` returns the error of the backend's insert, unchanged.  When there
is none, the caller's record afterwards carries the `ID` and `CreatedAt` of the
inserted row as the backend handed it back, and its twelve other fields are as
before; when there is one, the record is as before. -/
theorem Save_writes_back {σ : Type} (G : Gorm σ) (p : σ) (hostname : String)
    (data : GeoData) :
    (PostgresStorage.Save G p hostname data).err = (G.Create p (pgDataOf hostname data)).err ∧
    ((PostgresStorage.Save G p hostname data).err = none →
      (PostgresStorage.Save G p hostname data).data =
        { data with
          ID := (G.Create p (pgDataOf hostname data)).value.ID
          CreatedAt := (G.Create p (pgDataOf hostname data)).value.CreatedAt }) ∧
    ((PostgresStorage.Save G p hostname data).err ≠ none →
      (PostgresStorage.Save G p hostname data).data = data) := by
  unfold PostgresStorage.Save
  cases h : (G.Create p (pgDataOf hostname data)).err <;> simp [h]

/-- C8: `handleHealth` answers 503 with `status: "unhealthy"`,
`storage: "disconnected"` exactly when `Ping` returns an error, and otherwise
200 with `status: "healthy"`, `storage: "connected"`, `storage_type: "postgres"`
and `timestamp`: the current time in Unix seconds.  The store is left as `Ping`
left it and the outcome depends on no other method of the store; on the
reference backend the rows are unchanged. -/
theorem handleHealth_reports_ping {σ : Type} (S : Storage σ) (store : σ) (now : Time) :
    (((handleHealth S store now).resp.status = 503 ∧
        (handleHealth S store now).resp.body =
          .json [("status", .str "unhealthy"), ("storage", .str "disconnected")]) ↔
      (S.Ping store).err ≠ none) ∧
    ((S.Ping store).err = none →
      (handleHealth S store now).resp.status = 200 ∧
      (handleHealth S store now).resp.body =
        .json [("status", .str "healthy"), ("storage", .str "connected"),
               ("storage_type", .str "postgres"), ("timestamp", .int now.Unix)]) ∧
    (handleHealth S store now).store = (S.Ping store).store ∧
    (∀ S2 : Storage σ, S2.Ping = S.Ping → handleHealth S2 store now = handleHealth S store now) ∧
    (∀ db : PG, (handleHealth (PostgresStorage pgModel) db now).store.rows = db.rows) := by
  refine ⟨?_, ?_, ?_, ?_, ?_⟩
  · unfold handleHealth
    cases h : (S.Ping store).err <;>
      simp [h, StatusOK, StatusServiceUnavailable]
  · intro h
    unfold handleHealth
    simp [h, StatusOK]
  · unfold handleHealth
    cases h : (S.Ping store).err <;> simp [h]
  · intro S2 h2
    unfold handleHealth
    rw [h2]
  · intro db
    unfold handleHealth
    cases h : ((PostgresStorage pgModel).Ping db).err <;>
      simp [h, PostgresStorage, PostgresStorage.Ping, pgModel]

/-- The loop over the index statements returns an error exactly when one of the
statements fails in its turn. -/
theorem execIndexes_err_iff {σ : Type} (G : Gorm σ) (stmts : List String) (db : σ) :
    (execIndexes G stmts db).err ≠ none ↔ ∃ k, failsAt G stmts db k := by
  induction stmts generalizing db with
  | nil => simp [execIndexes, failsAt]
  | cons q rest ih =>
    unfold execIndexes
    cases h : (G.Exec db q).err with
    | some e =>
      simp only [ne_eq, reduceCtorEq, not_false_eq_true, true_iff]
      exact ⟨0, q, rfl, by simp [execState, h]⟩
    | none =>
      simp only
      rw [ih]
      constructor
      · rintro ⟨k, q1, hq1, hk⟩
        exact ⟨k + 1, q1, by simpa using hq1, by simpa [execState] using hk⟩
      · rintro ⟨k, q1, hq1, hk⟩
        cases k with
        | zero =>
          simp only [List.get?_cons_zero, Option.some.injEq] at hq1
          subst hq1
          simp [execState, h] at hk
        | succ k =>
          exact ⟨k, q1, by simpa using hq1, by simpa [execState] using hk⟩

/-- When no index statement fails, the loop leaves the database in the state
reached by executing all of them. -/
theorem execIndexes_store {σ : Type} (G : Gorm σ) (stmts : List String) (db : σ)
    (h : (execIndexes G stmts db).err = none) :
    (execIndexes G stmts db).store = execState G stmts db := by
  induction stmts generalizing db with
  | nil => rfl
  | cons q rest ih =>
    unfold execIndexes at h ⊢
    cases hq : (G.Exec db q).err with
    | some e => simp [hq] at h
    | none =>
      simp only [hq] at h ⊢
      simpa [execState] using ih _ h

/-- C9: `NewPostgresStorage` returns an error exactly when the connection open
fails, or the table migration fails, or one of the four index statements fails
in its turn; with an error it returns no handle.  Otherwise it returns the
handle, in the state after `ANALYZE geodata`, whether or not that statement
failed; a failure of it is only printed as a warning. -/
theorem NewPostgresStorage_fails_iff {σ : Type} (G : Gorm σ)
    (host port user password dbname sslmode : String) :
    indexes.length = 4 ∧
    ((NewPostgresStorage G host port user password dbname sslmode).err ≠ none ↔
      (∃ e, G.Open (dsnOf host port user password dbname sslmode) = .error e) ∨
      (∃ db, G.Open (dsnOf host port user password dbname sslmode) = .ok db ∧
        ((G.AutoMigrate db).err ≠ none ∨
          ∃ k, k < 4 ∧ failsAt G indexes (G.AutoMigrate db).store k))) ∧
    ((NewPostgresStorage G host port user password dbname sslmode).err ≠ none →
      (NewPostgresStorage G host port user password dbname sslmode).storage = none) ∧
    ((NewPostgresStorage G host port user password dbname sslmode).err = none →
      ∃ db, G.Open (dsnOf host port user password dbname sslmode) = .ok db ∧
        (NewPostgresStorage G host port user password dbname sslmode).storage =
          some (G.Exec (execState G indexes (G.AutoMigrate db).store) "ANALYZE geodata").store ∧
        (NewPostgresStorage G host port user password dbname sslmode).stdout =
          match (G.Exec (execState G indexes (G.AutoMigrate db).store) "ANALYZE geodata").err with
          | some e => ["Warning: failed to analyze table: " ++ e.Error ++ "\n"]
          | none => []) := by
  have hlt : ∀ (db : σ) (k : Nat), failsAt G indexes db k → k < 4 := by
    rintro db k ⟨q, hq, -⟩
    have := List.get?_eq_some.1 hq
    obtain ⟨hk, -⟩ := this
    simpa [indexes] using hk
  refine ⟨rfl, ?_, ?_, ?_⟩
  · unfold NewPostgresStorage
    cases hopen : G.Open (dsnOf host port user password dbname sslmode) with
    | error e => simp
    | ok db =>
      cases hmig : (G.AutoMigrate db).err with
      | some e => simp [hmig]
      | none =>
        simp only [hmig, createOptimizedIndexes]
        cases hidx : (execIndexes G indexes (G.AutoMigrate db).store).err with
        | some e =>
          have hex := (execIndexes_err_iff G indexes (G.AutoMigrate db).store).1
            (by rw [hidx]; simp)
          obtain ⟨k, hk⟩ := hex
          simp only [ne_eq, reduceCtorEq, not_false_eq_true, false_or, true_iff]
          exact Or.inr ⟨db, rfl, Or.inr ⟨k, hlt _ k hk, hk⟩⟩
        | none =>
          have hno : ¬ ∃ k, failsAt G indexes (G.AutoMigrate db).store k := by
            intro hex
            exact (execIndexes_err_iff G indexes (G.AutoMigrate db).store).2 hex hidx
          have hno4 : ¬ ∃ k, k < 4 ∧ failsAt G indexes (G.AutoMigrate db).store k := by
            rintro ⟨k, -, hk⟩
            exact hno ⟨k, hk⟩
          cases han : (G.Exec (execIndexes G indexes (G.AutoMigrate db).store).store
              "ANALYZE geodata").err <;>
            simp [han, hno4, hmig]
  · unfold NewPostgresStorage
    cases hopen : G.Open (dsnOf host port user password dbname sslmode) with
    | error e => simp
    | ok db =>
      cases hmig : (G.AutoMigrate db).err with
      | some e => simp [hmig]
      | none =>
        simp only [hmig]
        cases hidx : (createOptimizedIndexes G (G.AutoMigrate db).store).err <;> simp [hidx]
  · unfold NewPostgresStorage
    cases hopen : G.Open (dsnOf host port user password dbname sslmode) with
    | error e => simp
    | ok db =>
      cases hmig : (G.AutoMigrate db).err with
      | some e => simp [hmig]
      | none =>
        simp only [hmig, createOptimizedIndexes]
        cases hidx : (execIndexes G indexes (G.AutoMigrate db).store).err with
        | some e => simp [hidx]
        | none =>
          have hst := execIndexes_store G indexes (G.AutoMigrate db).store hidx
          intro _
          refine ⟨db, rfl, ?_⟩
          rw [hst]
          cases han : (G.Exec (execState G indexes (G.AutoMigrate db).store)
              "ANALYZE geodata").err <;> simp [han]

/-- The reference backend keeps the law of inserts. -/
theorem pgModel_insertLaw : InsertLaw pgModel PG.rows := by
  intro db v hacc
  simp only [pgModel, PG.Create] at hacc ⊢
  cases hdown : db.down with
  | some e => simp [hdown] at hacc
  | none =>
    cases href : db.refuse v with
    | some e => simp [hdown, href] at hacc
    | none =>
      by_cases hdup : db.rows.any (fun r => r.ID == if v.ID = 0 then db.seq + 1 else v.ID) = true
      · simp [hdown, href, hdup] at hacc
      · simp only [hdown, href, hdup]
        refine ⟨by simp, ?_, _, _, rfl⟩
        intro r hr heq
        apply hdup
        simp only [List.any_eq_true, beq_iff_eq]
        exact ⟨r, hr, by simpa using heq⟩

/-- C10: two requests with the same body, decoding to a payload with a hostname
and a geo_data record, against a backend that keeps the law of inserts and
accepts both inserts: each request makes one insert of the same row, both are
answered 201, and the table ends with two more rows than before, which carry
the payload's columns and two different ids, the ones reported in the two
responses. -/
theorem handleWebhook_duplicate_deliveries {σ : Type} (L : Lib) (G : Gorm σ)
    (rows : σ → List PostgresGeoData) (law : InsertLaw G rows) (store : σ)
    (body : List Char) (payload : WebhookPayload) (data : GeoData)
    (hdec : Decode L body = .ok payload) (hhost : payload.Hostname ≠ "")
    (hgeo : payload.GeoData = some data)
    (hfirst : (G.Create store (pgDataOf payload.Hostname data)).err = none)
    (hsecond : (G.Create (G.Create store (pgDataOf payload.Hostname data)).db
      (pgDataOf payload.Hostname data)).err = none) :
    (handleWebhook L (PostgresStorage G) store body).store =
      (G.Create store (pgDataOf payload.Hostname data)).db ∧
    (handleWebhook L (PostgresStorage G)
        (handleWebhook L (PostgresStorage G) store body).store body).store =
      (G.Create (G.Create store (pgDataOf payload.Hostname data)).db
        (pgDataOf payload.Hostname data)).db ∧
    ∃ id1 t1 id2 t2,
      id1 ≠ id2 ∧
      rows (handleWebhook L (PostgresStorage G)
          (handleWebhook L (PostgresStorage G) store body).store body).store =
        rows store ++
          [{ pgDataOf payload.Hostname data with ID := id1, CreatedAt := t1 },
           { pgDataOf payload.Hostname data with ID := id2, CreatedAt := t2 }] ∧
      (handleWebhook L (PostgresStorage G) store body).resp =
        ⟨201, some "application/json",
          .json [("status", .str "success"), ("message", .str "Data saved successfully"),
                 ("id", .uint id1)]⟩ ∧
      (handleWebhook L (PostgresStorage G)
          (handleWebhook L (PostgresStorage G) store body).store body).resp =
        ⟨201, some "application/json",
          .json [("status", .str "success"), ("message", .str "Data saved successfully"),
                 ("id", .uint id2)]⟩ := by
  have hreq : ∀ s : σ, (G.Create s (pgDataOf payload.Hostname data)).err = none →
      (handleWebhook L (PostgresStorage G) s body).store =
        (G.Create s (pgDataOf payload.Hostname data)).db ∧
      (handleWebhook L (PostgresStorage G) s body).resp =
        ⟨201, some "application/json",
          .json [("status", .str "success"), ("message", .str "Data saved successfully"),
                 ("id", .uint (G.Create s (pgDataOf payload.Hostname data)).value.ID)]⟩ := by
    intro s hs
    rw [handleWebhook_decoded L (PostgresStorage G) s body payload hdec]
    simp [hhost, hgeo, PostgresStorage, PostgresStorage.Save, hs, StatusCreated]
  obtain ⟨hst1, hresp1⟩ := hreq store hfirst
  obtain ⟨hst2, hresp2⟩ := hreq _ hsecond
  obtain ⟨hrows1, -, id1, t1, hval1⟩ := law store _ hfirst
  obtain ⟨hrows2, hfresh2, id2, t2, hval2⟩ := law _ _ hsecond
  have hid1 : (G.Create store (pgDataOf payload.Hostname data)).value.ID = id1 := by
    rw [hval1]
  have hid2 : (G.Create (G.Create store (pgDataOf payload.Hostname data)).db
      (pgDataOf payload.Hostname data)).value.ID = id2 := by
    rw [hval2]
  refine ⟨hst1, by rw [hst1]; exact hst2, id1, t1, id2, t2, ?_, ?_, ?_, ?_⟩
  · intro heq
    have hmem : (G.Create store (pgDataOf payload.Hostname data)).value ∈
        rows (G.Create store (pgDataOf payload.Hostname data)).db := by
      rw [hrows1]
      simp
    exact hfresh2 _ hmem (by rw [hid1, hid2]; exact heq)
  · rw [hst1, hst2, hrows2, hrows1, hval1, hval2]
    simp
  · rw [hresp1, hid1]
  · rw [hst1, hresp2, hid2]

/-- Witness of C10: the example request, delivered twice to the empty reference
backend, leaves two rows with ids 1 and 2. -/
theorem handleWebhook_duplicate_deliveries_witness :
    (handleWebhook exampleLib (PostgresStorage pgModel)
        (handleWebhook exampleLib (PostgresStorage pgModel) PG.empty exampleBody).store
        exampleBody).store.rows =
      [{ pgDataOf "host-1" exampleData with ID := 1 },
       { pgDataOf "host-1" exampleData with ID := 2 }] ∧
    ∃ id1 t1 id2 t2,
      id1 ≠ id2 ∧
      PG.rows (handleWebhook exampleLib (PostgresStorage pgModel)
          (handleWebhook exampleLib (PostgresStorage pgModel) PG.empty exampleBody).store
          exampleBody).store =
        PG.rows PG.empty ++
          [{ pgDataOf examplePayload.Hostname exampleData with ID := id1, CreatedAt := t1 },
           { pgDataOf examplePayload.Hostname exampleData with ID := id2, CreatedAt := t2 }] ∧
      (handleWebhook exampleLib (PostgresStorage pgModel) PG.empty exampleBody).resp =
        ⟨201, some "application/json",
          .json [("status", .str "success"), ("message", .str "Data saved successfully"),
                 ("id", .uint id1)]⟩ ∧
      (handleWebhook exampleLib (PostgresStorage pgModel)
          (handleWebhook exampleLib (PostgresStorage pgModel) PG.empty exampleBody).store
          exampleBody).resp =
        ⟨201, some "application/json",
          .json [("status", .str "success"), ("message", .str "Data saved successfully"),
                 ("id", .uint id2)]⟩ :=
  ⟨rfl,
   (handleWebhook_duplicate_deliveries exampleLib pgModel PG.rows pgModel_insertLaw PG.empty
      exampleBody examplePayload exampleData rfl (by decide) rfl rfl rfl).2.2⟩

/-- Witness of C6: a record that came with ID 99 and a creation time leaves the
reference backend with the ID 42 of the sequence and the time of the clock; on
a lost connection it is returned as it came. -/
theorem Save_writes_back_witness :
    (PostgresStorage.Save pgModel usedPG "host-1" suppliedData).err = none ∧
    (PostgresStorage.Save pgModel usedPG "host-1" suppliedData).data =
      { suppliedData with ID := 42, CreatedAt := ⟨1, 0⟩ } ∧
    (PostgresStorage.Save pgModel downPG "host-1" suppliedData).err =
      some (.text "connection refused") ∧
    (PostgresStorage.Save pgModel downPG "host-1" suppliedData).data = suppliedData :=
  ⟨rfl, (Save_writes_back pgModel usedPG "host-1" suppliedData).2.1 rfl, rfl,
   (Save_writes_back pgModel downPG "host-1" suppliedData).2.2 (by decide)⟩

/-- Witness of C8: 503 on a lost connection, 200 with the Unix time on a live
one. -/
theorem handleHealth_reports_ping_witness :
    (handleHealth (PostgresStorage pgModel) downPG ⟨63839664000, 0⟩).resp.status = 503 ∧
    (handleHealth (PostgresStorage pgModel) PG.empty ⟨63839664000, 0⟩).resp.body =
      .json [("status", .str "healthy"), ("storage", .str "connected"),
             ("storage_type", .str "postgres"), ("timestamp", .int 1704067200)] :=
  ⟨((handleHealth_reports_ping (PostgresStorage pgModel) downPG ⟨63839664000, 0⟩).1.2
      (by decide)).1,
   ((handleHealth_reports_ping (PostgresStorage pgModel) PG.empty ⟨63839664000, 0⟩).2.1
      rfl).2⟩

/-- Witness of C9: when the fourth index statement fails there is an error and
no handle; when only `ANALYZE geodata` fails there is a handle, no error, and a
warning on standard output. -/
theorem NewPostgresStorage_fails_iff_witness :
    (NewPostgresStorage
        (failingOn "CREATE INDEX IF NOT EXISTS idx_lat_lon_gist ON geodata USING GIST (point(lat, lon))")
        "localhost" "5432" "geo" "secret" "geo" "disable").err ≠ none ∧
    (NewPostgresStorage
        (failingOn "CREATE INDEX IF NOT EXISTS idx_lat_lon_gist ON geodata USING GIST (point(lat, lon))")
        "localhost" "5432" "geo" "secret" "geo" "disable").storage = none ∧
    (NewPostgresStorage (failingOn "ANALYZE geodata")
        "localhost" "5432" "geo" "secret" "geo" "disable").err = none ∧
    (NewPostgresStorage (failingOn "ANALYZE geodata")
        "localhost" "5432" "geo" "secret" "geo" "disable").storage.isSome = true ∧
    (NewPostgresStorage (failingOn "ANALYZE geodata")
        "localhost" "5432" "geo" "secret" "geo" "disable").stdout =
      ["Warning: failed to analyze table: statement failed\n"] := by
  have hfail := (NewPostgresStorage_fails_iff
    (failingOn "CREATE INDEX IF NOT EXISTS idx_lat_lon_gist ON geodata USING GIST (point(lat, lon))")
    "localhost" "5432" "geo" "secret" "geo" "disable").2.1.2
    (Or.inr ⟨PG.empty, rfl, Or.inr ⟨3, by decide, _, rfl, by decide⟩⟩)
  exact ⟨hfail,
    (NewPostgresStorage_fails_iff
      (failingOn "CREATE INDEX IF NOT EXISTS idx_lat_lon_gist ON geodata USING GIST (point(lat, lon))")
      "localhost" "5432" "geo" "secret" "geo" "disable").2.2.1 hfail,
    rfl, rfl, rfl⟩

end GeoStorage
